import Mathlib

/-!
Verification of the slide-puzzle solver (`src/game.rs`, `src/search.rs`).

The Rust sources are shallowly embedded: `Vec<u8>` becomes `List Nat` (the
constructor checks keep every cell below the length, which is at most 255, so
`Nat` arithmetic coincides with `u8` arithmetic on every reachable value),
`usize` becomes `Nat`, fallible operations return `Option`, and operations
that can abort the program (index out of bounds, a failed `expect`, an
explicit invariant failure) return `Except String`, the `.error` case marking
the abort.  All definitions are executable.
-/

set_option maxRecDepth 100000

namespace SlidePuzzle

/-- A game board (`struct Board` in game.rs): a row-major list of cells, the
hole represented as `0`, together with the side length. -/
structure Board where
  cells : List Nat
  side : Nat
deriving DecidableEq

deriving instance DecidableEq for Except

/-- The possible moves (`enum Move` in game.rs). `Move.left` swaps the blank
space with the piece to its left, and so on. -/
inductive Move where
  | left
  | right
  | up
  | down
deriving DecidableEq

/-- `ALL_MOVES` from game.rs, in source order. -/
def ALL_MOVES : List Move := [Move.left, Move.right, Move.up, Move.down]

/-- `Move::reverse` from game.rs: the opposite move. -/
def Move.reverse : Move → Move
  | Move.left => Move.right
  | Move.right => Move.left
  | Move.up => Move.down
  | Move.down => Move.up

/-!
`board_size` in game.rs computes `(num_cells as f64).sqrt()`, squares the
result with a binary64 multiplication, casts it to `usize` (truncation toward
zero) and compares with `num_cells`.  The functions below model that IEEE 754
binary64 computation exactly, by integer arithmetic on the dyadic mantissa
and exponent:

* `f64.sqrt` is correctly rounded (round to nearest, ties to even; a tie is
  impossible for a square root of an integer), so for `1 ≤ n` the rounded
  root is `k·2^(e−52)` with `4^e ≤ n < 4^(e+1)` and `k` the nearest integer
  to `√(n·4^(52−e))`;
* the product `root * root` is rounded to the nearest binary64 value with
  ties to even, which `roundNearestEven` implements on the exact dyadic
  square `k²·2^(2e−104)`;
* `as usize` truncates the rounded product.

The model is exact for `num_cells < 2^52`; `from_vec` only calls it with
`num_cells ≤ 255`.
-/

/-- Fueled floor logarithm (structural recursion so that the kernel can
evaluate it; the fuel is always sufficient since `log b n ≤ n`). -/
def natLogAux (b : Nat) : Nat → Nat → Nat
  | 0, _ => 0
  | fuel + 1, n => if n < b then 0 else natLogAux b fuel (n / b) + 1

/-- Floor logarithm in base `b` (for `b ≥ 2`, `n ≥ 1`). -/
def natLog (b n : Nat) : Nat := natLogAux b n n

/-- Fueled integer Newton iteration for the floor square root. -/
def natSqrtAux (n : Nat) : Nat → Nat → Nat
  | 0, x => x
  | fuel + 1, x =>
    let y := (x + n / x) / 2
    if y < x then natSqrtAux n fuel y else x

/-- Floor square root (Newton iteration from `n`, fuel `n` is sufficient as
the iterate strictly decreases until it stabilises). -/
def natSqrt (n : Nat) : Nat := if n = 0 then 0 else natSqrtAux n n n

/-- Round `a / 2 ^ d` to the nearest integer, ties to even. -/
def roundNearestEven (a d : Nat) : Nat :=
  if d = 0 then a
  else
    let q := a / 2 ^ d
    let r := a % 2 ^ d
    let half := 2 ^ (d - 1)
    if r < half then q
    else if half < r then q + 1
    else if q % 2 = 0 then q else q + 1

/-- Mantissa/exponent pair `(k, e)` with `k·2^(e−52)` the correctly rounded
binary64 square root of `n` (for `n = 0`, `(0, 0)` denoting `0.0`). -/
def sqrtF64 (n : Nat) : Nat × Nat :=
  if n = 0 then (0, 0)
  else
    let e := natLog 4 n
    let N := n * 4 ^ (52 - e)
    let k0 := natSqrt N
    (if N ≤ k0 * k0 + k0 then k0 else k0 + 1, e)

/-- `board_size` from game.rs: the side length of a board, or `none` when the
floating-point check `(root * root) as usize != num_cells` rejects the cell
count.  Because of the binary64 rounding this accepts many non-square counts
(the smallest is `2`, since the rounded square of `sqrt(2.0)` is
`2.0000000000000004`, which truncates back to `2`). -/
def board_size (num_cells : Nat) : Option Nat :=
  if num_cells = 0 then some 0
  else
    let ke := sqrtF64 num_cells
    let k := ke.1
    let e := ke.2
    let sq := k * k
    let E := natLog 2 sq - (104 - 2 * e)
    let j := roundNearestEven sq (52 + E - 2 * e)
    let t := j / 2 ^ (52 - E)
    if t ≠ num_cells then none
    else some (k / 2 ^ (52 - e))

/-- The `seen` marking loop of `Board::from_vec`: fails on a cell that is not
below the cell count, otherwise marks its slot. -/
def mark_cells (n : Nat) : List Nat → List Bool → Option (List Bool)
  | [], seen => some seen
  | c :: cs, seen => if n ≤ c then none else mark_cells n cs (seen.set c true)

/-- `Board::from_vec` from game.rs: rejects vectors longer than `u8::MAX`,
vectors whose length fails `board_size`, and vectors that are not a
permutation of `0 .. len-1`. -/
def Board.from_vec (cells : List Nat) : Option Board :=
  if 255 < cells.length then none
  else
    match board_size cells.length with
    | none => none
    | some size =>
      match mark_cells cells.length cells (List.replicate cells.length false) with
      | none => none
      | some seen => if seen.all (fun x => x) then some ⟨cells, size⟩ else none

/-- `Board::to_linear_index`. -/
def Board.to_linear_index (b : Board) (ix iy : Nat) : Nat :=
  iy * b.side + ix

/-- `Board::from_linear_index`.  (For `side = 0` the Rust `%` and `/` would
abort; such boards are nonempty-invalid and never reached by the theorems
below, which assume a positive side.) -/
def Board.from_linear_index (b : Board) (i : Nat) : Nat × Nat :=
  (i % b.side, i / b.side)

/-- The scanning loop of `Board::hole_position`: advance an `(ix, iy)` cursor
over the cells, wrapping at `side - 1`, and return the coordinates of the
first `0`.  `none` models the `no hole` program abort. -/
def hole_scan (side : Nat) : List Nat → Nat × Nat → Option (Nat × Nat)
  | [], _ => none
  | c :: cs, p =>
    if c = 0 then some p
    else if p.1 = side - 1 then hole_scan side cs (0, p.2 + 1)
    else hole_scan side cs (p.1 + 1, p.2)

/-- `Board::hole_position`: the 2D index of the hole; `none` models the
program abort when no hole exists. -/
def Board.hole_position (b : Board) : Option (Nat × Nat) :=
  hole_scan b.side b.cells (0, 0)

/-- `Vec::swap`: exchange positions `i` and `j`; `none` models the
out-of-bounds abort. -/
def list_swap (l : List Nat) (i j : Nat) : Option (List Nat) :=
  if i < l.length ∧ j < l.length then
    some ((l.set i (l.getD j 0)).set j (l.getD i 0))
  else none

/-- `Board::update` from game.rs: move the hole in the given direction,
`.ok none` when the hole is at the grid edge in that direction, `.error`
when the hole scan or an index aborts the program. -/
def Board.update (b : Board) (command : Move) : Except String (Option Board) :=
  match b.hole_position with
  | none => .error "There was no hole in that board!"
  | some (ix, iy) =>
    match command with
    | Move.left =>
      if ix = 0 then .ok none
      else
        match list_swap b.cells (b.to_linear_index ix iy) (b.to_linear_index (ix - 1) iy) with
        | none => .error "swap out of bounds"
        | some cs => .ok (some ⟨cs, b.side⟩)
    | Move.right =>
      if ix = b.side - 1 then .ok none
      else
        match list_swap b.cells (b.to_linear_index ix iy) (b.to_linear_index (ix + 1) iy) with
        | none => .error "swap out of bounds"
        | some cs => .ok (some ⟨cs, b.side⟩)
    | Move.up =>
      if iy = 0 then .ok none
      else
        match list_swap b.cells (b.to_linear_index ix iy) (b.to_linear_index ix (iy - 1)) with
        | none => .error "swap out of bounds"
        | some cs => .ok (some ⟨cs, b.side⟩)
    | Move.down =>
      if iy = b.side - 1 then .ok none
      else
        match list_swap b.cells (b.to_linear_index ix iy) (b.to_linear_index ix (iy + 1)) with
        | none => .error "swap out of bounds"
        | some cs => .ok (some ⟨cs, b.side⟩)

/-- `Board::verify` from game.rs: replay the moves, `false` as soon as a move
is inapplicable, otherwise compare the final board with the target. -/
def Board.verify (b : Board) (target : Board) (solution : List Move) : Except String Bool :=
  match solution with
  | [] => .ok (decide (b = target))
  | play :: rest =>
    match b.update play with
    | .error e => .error e
    | .ok none => .ok false
    | .ok (some nb) => nb.verify target rest

/-- First index satisfying the predicate (`iter().enumerate().filter(..).next()`
in game.rs). -/
def find_index (p : Nat → Bool) : List Nat → Option Nat
  | [] => none
  | c :: cs => if p c then some 0 else (find_index p cs).map (· + 1)

/-- `Board::tile_index`: 2D position of the first occurrence of `tile`;
`none` models the `expect` abort when the tile is missing. -/
def Board.tile_index (b : Board) (tile : Nat) : Option (Nat × Nat) :=
  match find_index (fun c => c = tile) b.cells with
  | none => none
  | some i => some (b.from_linear_index i)

/-- `Board::tile_distance`: Manhattan distance of a tile from its position in
`goal`. -/
def Board.tile_distance (b : Board) (goal : Board) (for_tile : Nat) : Option Nat :=
  match b.tile_index for_tile, goal.tile_index for_tile with
  | some s, some g =>
    some ((if g.1 < s.1 then s.1 - g.1 else g.1 - s.1) +
          (if g.2 < s.2 then s.2 - g.2 else g.2 - s.2))
  | _, _ => none

/-- `Board::estimate_cost` from game.rs.  The Rust loop is
`for tile in (1 .. self.cells.len() - 1)`, so it sums the tiles `1` through
`len - 2` — the tile with the highest value, `len - 1`, is skipped.  For
`len = 0` the range bound underflows in Rust; modelled as `none`. -/
def Board.estimate_cost (b : Board) (goal : Board) : Option Nat :=
  if b.cells.length = 0 then none
  else
    (List.range' 1 (b.cells.length - 1 - 1)).foldl
      (fun acc tile =>
        match acc, b.tile_distance goal tile with
        | some a, some d => some (a + d)
        | _, _ => none)
      (some 0)

/-- A board satisfying the invariants of the data model: positive side,
`side² = cell count`, and the cells a permutation of `0 .. len-1`. -/
def Board.Valid (b : Board) : Prop :=
  0 < b.side ∧ b.cells.length = b.side * b.side ∧
    b.cells.Perm (List.range b.cells.length)

instance (b : Board) : Decidable b.Valid := by
  unfold Board.Valid; infer_instance

/-- Replaying a move list from a board: `some` final board when every move
applies (no edge hit, no abort). -/
def Board.replay (b : Board) : List Move → Option Board
  | [] => some b
  | m :: ms =>
    match b.update m with
    | .ok (some nb) => nb.replay ms
    | _ => none

/-! ### The search engine (search.rs)

`a_star` uses a `BinaryHeap<AstarNode>` and a `HashMap<Board, Option<Move>>`.
The hash map is only ever read through `get`/`entry` (never iterated), so an
association list models it exactly.  The binary heap is modelled by the
algorithms of Rust\u0027s standard library: `push` appends and sifts up;
`pop` removes the last element, swaps it into the root and sifts it down to
the bottom along the greater-child path (ties prefer the right child) and
then up again.  The `Ord` instance of `AstarNode` compares only the costs
`estimate_cost + path_len` (with the arguments flipped, so the max-heap
surfaces a minimal-cost node); elements with equal cost are surfaced in the
order determined by these sift algorithms. -/

/-- `HashMap::get` on the association-list model. -/
def map_get (m : List (Board × Option Move)) (k : Board) : Option (Option Move) :=
  match m with
  | [] => none
  | kv :: rest => if kv.1 = k then some kv.2 else map_get rest k

/-- `HashMap::insert` on the association-list model: replace the binding if
present, else add it. -/
def map_insert (m : List (Board × Option Move)) (k : Board) (v : Option Move) :
    List (Board × Option Move) :=
  match map_get m k with
  | some _ => m.map (fun kv => if kv.1 = k then (k, v) else kv)
  | none => m ++ [(k, v)]

/-- `struct AstarNode` from search.rs. -/
structure AstarNode where
  goal : Board
  node : Board
  path_len : Nat
deriving DecidableEq

def dummyNode : AstarNode := ⟨⟨[], 0⟩, ⟨[], 0⟩, 0⟩

/-- The cost both sides of `Ord for AstarNode` compute on every comparison:
`node.estimate_cost(goal) + path_len`.  On the boards a search over valid
same-size boards touches, `estimate_cost` never aborts (every tile `1 ..
len-2` is present), so reading the value with `getD 0` is exact there. -/
def AstarNode.cost (n : AstarNode) : Nat :=
  (n.node.estimate_cost n.goal).getD 0 + n.path_len

/-- `a ≤ b` per the `Ord` instance: `cmp(self, other) = other_cost.cmp(my_cost)`,
so `a ≤ b` holds iff `b.cost ≤ a.cost`. -/
def nodeLe (a b : AstarNode) : Bool := b.cost ≤ a.cost

/-- `BinaryHeap::sift_up` (hole at `pos` holding `x`): move parents down
while they compare below `x`, then place `x`.  Fueled structural recursion;
the parent index strictly decreases, so fuel `pos + 1` suffices. -/
def sift_up (le : AstarNode → AstarNode → Bool) (x : AstarNode) :
    Nat → List AstarNode → Nat → List AstarNode
  | 0, data, pos => data.set pos x
  | fuel + 1, data, pos =>
    if pos = 0 then data.set pos x
    else if le x (data.getD ((pos - 1) / 2) dummyNode) then data.set pos x
    else sift_up le x fuel
      (data.set pos (data.getD ((pos - 1) / 2) dummyNode)) ((pos - 1) / 2)

/-- `BinaryHeap::sift_down_to_bottom` (hole at `pos` holding `x`): move the
hole to the bottom along the greater-child path (a tie prefers the right
child, as in `child += (get(child) <= get(child + 1))`), then sift `x` up. -/
def sift_down (le : AstarNode → AstarNode → Bool) (x : AstarNode) :
    Nat → List AstarNode → Nat → List AstarNode
  | 0, data, pos => sift_up le x (pos + 1) data pos
  | fuel + 1, data, pos =>
    if 2 * pos + 1 + 1 < data.length then
      if le (data.getD (2 * pos + 1) dummyNode) (data.getD (2 * pos + 1 + 1) dummyNode) then
        sift_down le x fuel
          (data.set pos (data.getD (2 * pos + 1 + 1) dummyNode)) (2 * pos + 1 + 1)
      else
        sift_down le x fuel
          (data.set pos (data.getD (2 * pos + 1) dummyNode)) (2 * pos + 1)
    else if 2 * pos + 1 = data.length - 1 then
      sift_up le x (2 * pos + 1 + 1)
        (data.set pos (data.getD (2 * pos + 1) dummyNode)) (2 * pos + 1)
    else
      sift_up le x (pos + 1) data pos

/-- `BinaryHeap::push`. -/
def heap_push (le : AstarNode → AstarNode → Bool) (data : List AstarNode)
    (item : AstarNode) : List AstarNode :=
  sift_up le item (data.length + 1) (data ++ [item]) data.length

/-- `BinaryHeap::pop`: remove the last element; if the heap is still
nonempty swap it into the root and sift it down to the bottom. -/
def heap_pop (le : AstarNode → AstarNode → Bool) (data : List AstarNode) :
    Option (AstarNode × List AstarNode) :=
  if data.length = 0 then none
  else if data.dropLast.length = 0 then some (data.getD (data.length - 1) dummyNode, [])
  else some (data.dropLast.getD 0 dummyNode,
    sift_down le (data.getD (data.length - 1) dummyNode)
      data.dropLast.length data.dropLast 0)

/-- The backward walk of `build_path`
(`while let Some(&Some(movement)) = movements.get(&cursor)`).  The Rust loop
carries no bound; the model adds fuel — one step per visited entry is
enough for the maps the search builds — and `.error` marks the `expect`
abort on an inapplicable reversed move. -/
def build_path_loop (movements : List (Board × Option Move)) :
    Nat → Board → List Move → Except String (List Move)
  | 0, _, _ => .error "loop out of fuel"
  | fuel + 1, cursor, path =>
    match map_get movements cursor with
    | some (some movement) =>
      match cursor.update movement.reverse with
      | .ok (some c2) => build_path_loop movements fuel c2 (path ++ [movement])
      | _ => .error "We already found this path"
    | _ => .ok path

/-- `build_path` from search.rs (the `length` argument of the source is only
a capacity hint; the model\u0027s fuel plays that role and is supplied by the
caller). -/
def build_path (movements : List (Board × Option Move)) (ending : Board)
    (fuel : Nat) : Except String (List Move) :=
  match map_get movements ending with
  | none => .error "Surely the ending configuration has a path to it."
  | some none => .ok []
  | some (some m) =>
    match ending.update m.reverse with
    | .ok (some cursor) =>
      match build_path_loop movements fuel cursor [m] with
      | .error e => .error e
      | .ok path => .ok path.reverse
    | _ => .error "We already found this path"

/-- The `for &play in moves` body of the `a_star` loop: try every move from
`current`; on generating the goal record its move and return the
reconstructed path (`.inl`), otherwise record-and-push unseen boards
(`entry(..).or_insert_with(..)`) and continue (`.inr`). -/
def expand (goal : Board) (current : Board) (current_depth : Nat) :
    List Move → List AstarNode → List (Board × Option Move) →
    Except String (Sum (List Move) (List AstarNode × List (Board × Option Move)))
  | [], fringe, movements => .ok (.inr (fringe, movements))
  | play :: rest, fringe, movements =>
    match current.update play with
    | .error e => .error e
    | .ok none => expand goal current current_depth rest fringe movements
    | .ok (some next) =>
      if next = goal then
        match build_path (map_insert movements next (some play)) goal
            ((map_insert movements next (some play)).length + 1) with
        | .error e => .error e
        | .ok p => .ok (.inl p)
      else
        match map_get movements next with
        | some _ => expand goal current current_depth rest fringe movements
        | none =>
          expand goal current current_depth rest
            (heap_push nodeLe fringe ⟨goal, next, current_depth⟩)
            (map_insert movements next (some play))

/-- The `while let Some(..) = fringe.pop()` loop of `a_star`.
`.ok none` is fuel exhaustion (the fuel `a_star` supplies is proved
sufficient), `.ok (some none)` the exhausted-fringe `None` return,
`.ok (some (some p))` the `Some(path)` return. -/
def a_star_loop (goal : Board) (moves : List Move) :
    Nat → List AstarNode → List (Board × Option Move) →
    Except String (Option (Option (List Move)))
  | 0, _, _ => .ok none
  | fuel + 1, fringe, movements =>
    match heap_pop nodeLe fringe with
    | none => .ok (some none)
    | some (popped, fringe2) =>
      match expand goal popped.node (popped.path_len + 1) moves fringe2 movements with
      | .error e => .error e
      | .ok (.inl path) => .ok (some (some path))
      | .ok (.inr fm) => a_star_loop goal moves fuel fm.1 fm.2

/-- `a_star` from search.rs.  The fuel `len! + 2` bounds the number of loop
iterations: each iteration pops one fringe element, every push after the
initial one is tied to a fresh visited key, and the visited keys are
distinct permutations of `start.cells`, of which there are at most `len!`. -/
def a_star (start goal : Board) (moves : List Move) :
    Except String (Option (Option (List Move))) :=
  if start = goal then .ok (some (some []))
  else
    a_star_loop goal moves (Nat.factorial start.cells.length + 2)
      (heap_push nodeLe [] ⟨goal, start, 0⟩)
      [(start, none)]

/-! ### List utilities -/

theorem set_getD_self : ∀ (l : List Nat) (i : Nat), l.set i (l.getD i 0) = l
  | [], _ => rfl
  | c :: _, 0 => by simp
  | c :: cs, i + 1 => by
    simpa using set_getD_self cs i

theorem getD_set (l : List Nat) (i k x : Nat) (hi : i < l.length) :
    (l.set i x).getD k 0 = if k = i then x else l.getD k 0 := by
  induction l generalizing i k with
  | nil => simp at hi
  | cons c cs ih =>
    cases i with
    | zero =>
      cases k with
      | zero => simp
      | succ k => simp
    | succ i =>
      cases k with
      | zero => simp
      | succ k =>
        simp only [List.set_cons_succ, List.getD_cons_succ]
        rw [ih i k (by simpa using hi)]
        simp [Nat.succ_inj]

theorem cons_set_perm : ∀ (t : List Nat) (k a : Nat), k < t.length →
    ((t.getD k 0) :: t.set k a).Perm (a :: t)
  | [], k, a, h => by simp at h
  | c :: cs, 0, a, _ => by
    simpa using List.Perm.swap a c cs
  | c :: cs, k + 1, a, h => by
    simp only [List.getD_cons_succ, List.set_cons_succ]
    have ih := cons_set_perm cs k a (by simpa using h)
    exact ((List.Perm.swap c (cs.getD k 0) (cs.set k a)).trans
      ((ih.cons c).trans (List.Perm.swap a c cs)))

theorem swap_perm (l : List Nat) (i j : Nat) (hi : i < l.length) (hj : j < l.length) :
    ((l.set i (l.getD j 0)).set j (l.getD i 0)).Perm l := by
  rcases Nat.lt_trichotomy i j with hlt | heq | hgt
  · clear hi
    induction l generalizing i j with
    | nil => simp at hj
    | cons c cs ih =>
      cases i with
      | zero =>
        cases j with
        | zero => omega
        | succ j =>
          simp only [List.getD_cons_succ, List.set_cons_zero, List.set_cons_succ,
            List.getD_cons_zero]
          exact cons_set_perm cs j c (by simpa using hj)
      | succ i =>
        cases j with
        | zero => omega
        | succ j =>
          simp only [List.getD_cons_succ, List.set_cons_succ]
          exact (ih i j (by simpa using hj) (by omega)).cons c
  · subst heq
    rw [set_getD_self, set_getD_self]
  · rw [List.set_comm _ _ _ (by omega)]
    have h2 : ((l.set j (l.getD i 0)).set i (l.getD j 0)).Perm l := by
      clear hj
      induction l generalizing i j with
      | nil => simp at hi
      | cons c cs ih =>
        cases j with
        | zero =>
          cases i with
          | zero => omega
          | succ i =>
            simp only [List.getD_cons_succ, List.set_cons_zero, List.set_cons_succ,
              List.getD_cons_zero]
            exact cons_set_perm cs i c (by simpa using hi)
        | succ j =>
          cases i with
          | zero => omega
          | succ i =>
            simp only [List.getD_cons_succ, List.set_cons_succ]
            exact (ih i j (by simpa using hi) (by omega)).cons c
    exact h2

/-! ### `find_index` characterisation -/

theorem find_index_eq_none_iff (p : Nat → Bool) :
    ∀ l : List Nat, find_index p l = none ↔ ∀ x ∈ l, p x = false := by
  intro l
  induction l with
  | nil => simp [find_index]
  | cons c cs ih =>
    simp only [find_index]
    cases hpc : p c with
    | false =>
      rw [if_neg (by decide)]
      constructor
      · intro h x hx
        rcases List.mem_cons.mp hx with rfl | hx'
        · exact hpc
        · cases hfi : find_index p cs with
          | none => exact (ih.mp hfi) x hx'
          | some j => rw [hfi] at h; cases h
      · intro h
        rw [ih.mpr (fun x hx => h x (List.mem_cons_of_mem _ hx))]
        rfl
    | true =>
      rw [if_pos rfl]
      constructor
      · intro h; cases h
      · intro h
        have hc := h c (by simp)
        rw [hpc] at hc; cases hc

theorem find_index_eq_some (p : Nat → Bool) :
    ∀ (l : List Nat) (i : Nat), find_index p l = some i →
      i < l.length ∧ p (l.getD i 0) = true ∧ ∀ k < i, p (l.getD k 0) = false := by
  intro l
  induction l with
  | nil => intro i h; simp [find_index] at h
  | cons c cs ih =>
    intro i h
    simp only [find_index] at h
    cases hpc : p c with
    | false =>
      rw [hpc, if_neg (by decide)] at h
      cases hfi : find_index p cs with
      | none => rw [hfi] at h; cases h
      | some i' =>
        rw [hfi] at h
        simp only [Option.map_some', Option.some.injEq] at h
        subst h
        obtain ⟨h1, h2, h3⟩ := ih i' hfi
        refine ⟨by simpa using h1, by simpa using h2, ?_⟩
        intro k hk
        cases k with
        | zero => simpa using hpc
        | succ k => simpa using h3 k (by omega)
    | true =>
      rw [hpc, if_pos rfl] at h
      simp only [Option.some.injEq] at h
      subst h
      exact ⟨by simp, by simpa using hpc, by omega⟩

theorem find_index_eq_some_of (p : Nat → Bool) :
    ∀ (l : List Nat) (i : Nat), i < l.length → p (l.getD i 0) = true →
      (∀ k < i, p (l.getD k 0) = false) → find_index p l = some i := by
  intro l
  induction l with
  | nil => intro i h; simp at h
  | cons c cs ih =>
    intro i hi hp hmin
    simp only [find_index]
    cases i with
    | zero =>
      simp only [List.getD_cons_zero] at hp
      rw [hp, if_pos rfl]
    | succ i =>
      have hc : p c = false := by simpa using hmin 0 (by omega)
      rw [hc, if_neg (by decide),
        ih i (by simpa using hi) (by simpa using hp)
          (fun k hk => by simpa using hmin (k + 1) (by omega))]
      rfl

/-! ### `hole_scan` follows the linear index -/

theorem hole_scan_eq (side : Nat) (hs : 0 < side) :
    ∀ (cs : List Nat) (k : Nat),
      hole_scan side cs (k % side, k / side) =
        (find_index (fun c => c = 0) cs).map (fun i => ((k + i) % side, (k + i) / side)) := by
  intro cs
  induction cs with
  | nil => intro k; simp [hole_scan, find_index]
  | cons c cs ih =>
    intro k
    simp only [hole_scan, find_index]
    by_cases hc : c = 0
    · rw [if_pos hc, if_pos (show (decide (c = 0)) = true by simpa using hc)]
      simp
    · rw [if_neg hc, if_neg (show ¬ (decide (c = 0)) = true by simpa using hc)]
      have hdm : side * (k / side) + k % side = k := Nat.div_add_mod k side
      have hmlt : k % side < side := Nat.mod_lt _ hs
      have htail : ∀ q : Nat × Nat, q = ((k + 1) % side, (k + 1) / side) →
          hole_scan side cs q =
            Option.map (fun i => ((k + i) % side, (k + i) / side))
              (Option.map (fun x => x + 1) (find_index (fun c => decide (c = 0)) cs)) := by
        intro q hq
        rw [hq, ih (k + 1)]
        cases hfi : find_index (fun c => decide (c = 0)) cs with
        | none => rfl
        | some j =>
          simp only [Option.map_some', Option.some.injEq]
          have : k + 1 + j = k + (j + 1) := by omega
          rw [this]
      by_cases hedge : k % side = side - 1
      · rw [if_pos hedge]
        refine htail _ ?_
        have hmul : side * (k / side + 1) = side * (k / side) + side := by ring
        have h3 : k + 1 = side * (k / side + 1) := by omega
        rw [h3, Nat.mul_mod_right, Nat.mul_div_cancel_left _ hs]
      · rw [if_neg hedge]
        refine htail _ ?_
        have h1 : k % side + 1 < side := by omega
        have h3 : k + 1 = (k % side + 1) + (k / side) * side := by
          have hcomm : side * (k / side) = (k / side) * side := Nat.mul_comm _ _
          omega
        rw [h3, Nat.add_mul_mod_self_right, Nat.add_mul_div_right _ _ hs,
          Nat.mod_eq_of_lt h1, Nat.div_eq_of_lt h1]
        simp

/-- For a board with positive side, `hole_position` returns the 2D coordinates
of the first `0` cell, and aborts exactly when there is none. -/
theorem hole_position_eq (b : Board) (hs : 0 < b.side) :
    b.hole_position =
      (find_index (fun c => c = 0) b.cells).map (fun i => (i % b.side, i / b.side)) := by
  have h := hole_scan_eq b.side hs b.cells 0
  simpa [Board.hole_position, Nat.zero_mod, Nat.zero_div] using h

/-! ### Validity facts -/

theorem getD_mem : ∀ (l : List Nat) (k : Nat), k < l.length → l.getD k 0 ∈ l
  | c :: _, 0, _ => by simp
  | c :: cs, k + 1, h => by
    simpa using Or.inr (getD_mem cs k (by simpa using h))

theorem getD_inj {l : List Nat} (hnd : l.Nodup) :
    ∀ {k1 k2 : Nat}, k1 < l.length → k2 < l.length →
      l.getD k1 0 = l.getD k2 0 → k1 = k2 := by
  induction l with
  | nil => intro k1 _ h; simp at h
  | cons c cs ih =>
    intro k1 k2 h1 h2 he
    rcases List.nodup_cons.mp hnd with ⟨hcm, hnd'⟩
    cases k1 with
    | zero =>
      cases k2 with
      | zero => rfl
      | succ k2 =>
        exfalso
        simp only [List.getD_cons_zero, List.getD_cons_succ] at he
        exact hcm (he ▸ getD_mem cs k2 (by simpa using h2))
    | succ k1 =>
      cases k2 with
      | zero =>
        exfalso
        simp only [List.getD_cons_zero, List.getD_cons_succ] at he
        exact hcm (he ▸ getD_mem cs k1 (by simpa using h1))
      | succ k2 =>
        simp only [List.getD_cons_succ] at he
        exact congrArg (· + 1)
          (ih hnd' (by simpa using h1) (by simpa using h2) he)

theorem Board.Valid.nodup {b : Board} (h : b.Valid) : b.cells.Nodup :=
  (h.2.2.nodup_iff).mpr (List.nodup_range _)

theorem Board.Valid.mem_iff {b : Board} (h : b.Valid) {v : Nat} :
    v ∈ b.cells ↔ v < b.cells.length := by
  rw [h.2.2.mem_iff, List.mem_range]

/-! ### Characterisation of `update` -/

/-- Two grid positions (column, row) at Manhattan distance exactly 1. -/
def adj_pair (p1 p2 : Nat × Nat) : Prop :=
  (p1.1 = p2.1 ∧ (p1.2 = p2.2 + 1 ∨ p2.2 = p1.2 + 1)) ∨
  (p1.2 = p2.2 ∧ (p1.1 = p2.1 + 1 ∨ p2.1 = p1.1 + 1))

/-- The grid-edge test `update` performs for each move, phrased on the
hole's linear index (`i % side` is the hole's column, `i / side` its row). -/
def at_edge (s i : Nat) : Move → Prop
  | Move.left => i % s = 0
  | Move.right => i % s = s - 1
  | Move.up => i / s = 0
  | Move.down => i / s = s - 1

instance (s i : Nat) (m : Move) : Decidable (at_edge s i m) := by
  cases m <;> (unfold at_edge; infer_instance)

/-- The linear index of the neighbour the hole swaps with in `update`. -/
def target_index (s i : Nat) : Move → Nat
  | Move.left => i - 1
  | Move.right => i + 1
  | Move.up => i - s
  | Move.down => i + s

/-- On a valid board, `update` finds the hole at the unique `0` cell, fails
exactly at the grid edge, and otherwise swaps the hole with the target
neighbour. -/
theorem update_spec {b : Board} (hv : b.Valid) (m : Move) :
    ∃ i, find_index (fun c => c = 0) b.cells = some i ∧ i < b.cells.length ∧
      b.cells.getD i 0 = 0 ∧
      (at_edge b.side i m → b.update m = .ok none) ∧
      (¬ at_edge b.side i m →
        target_index b.side i m < b.cells.length ∧ target_index b.side i m ≠ i ∧
        ¬ at_edge b.side (target_index b.side i m) m.reverse ∧
        target_index b.side (target_index b.side i m) m.reverse = i ∧
        adj_pair (i % b.side, i / b.side)
          (target_index b.side i m % b.side, target_index b.side i m / b.side) ∧
        b.update m = .ok (some ⟨(b.cells.set i
            (b.cells.getD (target_index b.side i m) 0)).set
            (target_index b.side i m) (b.cells.getD i 0), b.side⟩)) := by
  obtain ⟨hs, hlen, hperm⟩ := hv
  have hlen1 : 0 < b.cells.length := by
    have := Nat.mul_pos hs hs; omega
  have hmem : (0 : Nat) ∈ b.cells := hperm.mem_iff.mpr (List.mem_range.mpr hlen1)
  obtain ⟨i, hfi⟩ : ∃ i, find_index (fun c => decide (c = 0)) b.cells = some i := by
    cases hfi : find_index (fun c => decide (c = 0)) b.cells with
    | none =>
      have := (find_index_eq_none_iff _ _).mp hfi 0 hmem
      simp at this
    | some i => exact ⟨i, rfl⟩
  obtain ⟨hilt, hpi, _⟩ := find_index_eq_some _ _ _ hfi
  have hi0 : b.cells.getD i 0 = 0 := by simpa using hpi
  obtain ⟨q, r, hq, hr⟩ : ∃ q r, i / b.side = q ∧ i % b.side = r := ⟨_, _, rfl, rfl⟩
  have hhp : b.hole_position = some (r, q) := by
    rw [hole_position_eq b hs, hfi]
    simp [hq, hr]
  have hdm : q * b.side + r = i := by
    rw [← hq, ← hr, Nat.mul_comm]
    exact Nat.div_add_mod i b.side
  have hrlt : r < b.side := hr ▸ Nat.mod_lt _ hs
  have hqlt : q < b.side := by
    rw [← hq, Nat.div_lt_iff_lt_mul hs]
    omega
  have hmulq : q * b.side ≤ (b.side - 1) * b.side :=
    Nat.mul_le_mul_right b.side (show q ≤ b.side - 1 by omega)
  have hsubmul : (b.side - 1) * b.side = b.side * b.side - 1 * b.side :=
    Nat.sub_mul b.side 1 b.side
  have hss : 1 * b.side ≤ b.side * b.side :=
    Nat.mul_le_mul_right b.side (show 1 ≤ b.side by omega)
  refine ⟨i, hfi, hilt, hi0, ?_, ?_⟩
  · intro hedge
    cases m with
    | left =>
      simp only [at_edge] at hedge
      rw [hr] at hedge
      unfold Board.update
      rw [hhp]
      dsimp only
      rw [if_pos hedge]
    | right =>
      simp only [at_edge] at hedge
      rw [hr] at hedge
      unfold Board.update
      rw [hhp]
      dsimp only
      rw [if_pos hedge]
    | up =>
      simp only [at_edge] at hedge
      rw [hq] at hedge
      unfold Board.update
      rw [hhp]
      dsimp only
      rw [if_pos hedge]
    | down =>
      simp only [at_edge] at hedge
      rw [hq] at hedge
      unfold Board.update
      rw [hhp]
      dsimp only
      rw [if_pos hedge]
  · intro hedge
    cases m with
    | left =>
      simp only [at_edge] at hedge
      rw [hr] at hedge
      simp only [target_index]
      have hA : b.to_linear_index r q = i := by
        unfold Board.to_linear_index; omega
      have hB : b.to_linear_index (r - 1) q = i - 1 := by
        unfold Board.to_linear_index; omega
      have htlt : i - 1 < b.cells.length := by omega
      have hrevmod : (i - 1) % b.side = r - 1 := by
        have h3 : i - 1 = (r - 1) + q * b.side := by omega
        rw [h3, Nat.add_mul_mod_self_right, Nat.mod_eq_of_lt (by omega)]
      have hrevdiv : (i - 1) / b.side = q := by
        have h3 : i - 1 = (r - 1) + q * b.side := by omega
        rw [h3, Nat.add_mul_div_right _ _ hs, Nat.div_eq_of_lt (by omega)]
        omega
      refine ⟨htlt, by omega, ?_, ?_, ?_, ?_⟩
      · simp only [Move.reverse, at_edge]
        rw [hrevmod]
        omega
      · simp only [Move.reverse, target_index]
        omega
      · rw [hq, hr, hrevmod, hrevdiv]
        exact Or.inr ⟨rfl, Or.inl (by omega)⟩
      unfold Board.update
      rw [hhp]
      dsimp only
      rw [if_neg hedge, hA, hB]
      unfold list_swap
      rw [if_pos (show i < b.cells.length ∧ i - 1 < b.cells.length from ⟨hilt, htlt⟩)]
    | right =>
      simp only [at_edge] at hedge
      rw [hr] at hedge
      simp only [target_index]
      have hA : b.to_linear_index r q = i := by
        unfold Board.to_linear_index; omega
      have hB : b.to_linear_index (r + 1) q = i + 1 := by
        unfold Board.to_linear_index; omega
      have htlt : i + 1 < b.cells.length := by omega
      have hrevmod : (i + 1) % b.side = r + 1 := by
        have h3 : i + 1 = (r + 1) + q * b.side := by omega
        rw [h3, Nat.add_mul_mod_self_right, Nat.mod_eq_of_lt (by omega)]
      have hrevdiv : (i + 1) / b.side = q := by
        have h3 : i + 1 = (r + 1) + q * b.side := by omega
        rw [h3, Nat.add_mul_div_right _ _ hs, Nat.div_eq_of_lt (by omega)]
        omega
      refine ⟨htlt, by omega, ?_, ?_, ?_, ?_⟩
      · simp only [Move.reverse, at_edge]
        rw [hrevmod]
        omega
      · simp only [Move.reverse, target_index]
        omega
      · rw [hq, hr, hrevmod, hrevdiv]
        exact Or.inr ⟨rfl, Or.inr rfl⟩
      unfold Board.update
      rw [hhp]
      dsimp only
      rw [if_neg hedge, hA, hB]
      unfold list_swap
      rw [if_pos (show i < b.cells.length ∧ i + 1 < b.cells.length from ⟨hilt, htlt⟩)]
    | up =>
      simp only [at_edge] at hedge
      rw [hq] at hedge
      simp only [target_index]
      have hqge : 1 * b.side ≤ q * b.side :=
        Nat.mul_le_mul_right b.side (show 1 ≤ q by omega)
      have hqsub : (q - 1) * b.side = q * b.side - 1 * b.side := Nat.sub_mul q 1 b.side
      have hA : b.to_linear_index r q = i := by
        unfold Board.to_linear_index; omega
      have hB : b.to_linear_index r (q - 1) = i - b.side := by
        unfold Board.to_linear_index; omega
      have htlt : i - b.side < b.cells.length := by omega
      have hrevdiv : (i - b.side) / b.side = q - 1 := by
        have h3 : i - b.side = r + (q - 1) * b.side := by omega
        rw [h3, Nat.add_mul_div_right _ _ hs, Nat.div_eq_of_lt hrlt]
        omega
      have hrevmod : (i - b.side) % b.side = r := by
        have h3 : i - b.side = r + (q - 1) * b.side := by omega
        rw [h3, Nat.add_mul_mod_self_right, Nat.mod_eq_of_lt hrlt]
      refine ⟨htlt, by omega, ?_, ?_, ?_, ?_⟩
      · simp only [Move.reverse, at_edge]
        rw [hrevdiv]
        omega
      · simp only [Move.reverse, target_index]
        omega
      · rw [hq, hr, hrevmod, hrevdiv]
        exact Or.inl ⟨rfl, Or.inl (by omega)⟩
      unfold Board.update
      rw [hhp]
      dsimp only
      rw [if_neg hedge, hA, hB]
      unfold list_swap
      rw [if_pos (show i < b.cells.length ∧ i - b.side < b.cells.length from ⟨hilt, htlt⟩)]
    | down =>
      simp only [at_edge] at hedge
      rw [hq] at hedge
      simp only [target_index]
      have hs2 : 2 ≤ b.side := by omega
      have hmul2 : q * b.side ≤ (b.side - 2) * b.side :=
        Nat.mul_le_mul_right b.side (show q ≤ b.side - 2 by omega)
      have hsub2 : (b.side - 2) * b.side = b.side * b.side - 2 * b.side :=
        Nat.sub_mul b.side 2 b.side
      have h2ss : 2 * b.side ≤ b.side * b.side :=
        Nat.mul_le_mul_right b.side hs2
      have hA : b.to_linear_index r q = i := by
        unfold Board.to_linear_index; omega
      have hB : b.to_linear_index r (q + 1) = i + b.side := by
        unfold Board.to_linear_index
        have hqs : (q + 1) * b.side = q * b.side + b.side := by ring
        omega
      have htlt : i + b.side < b.cells.length := by omega
      have hrevdiv : (i + b.side) / b.side = q + 1 := by
        have h3 : i + b.side = r + (q + 1) * b.side := by
          have hqs : (q + 1) * b.side = q * b.side + b.side := by ring
          omega
        rw [h3, Nat.add_mul_div_right _ _ hs, Nat.div_eq_of_lt hrlt]
        omega
      have hrevmod : (i + b.side) % b.side = r := by
        have h3 : i + b.side = r + (q + 1) * b.side := by
          have hqs : (q + 1) * b.side = q * b.side + b.side := by ring
          omega
        rw [h3, Nat.add_mul_mod_self_right, Nat.mod_eq_of_lt hrlt]
      refine ⟨htlt, by omega, ?_, ?_, ?_, ?_⟩
      · simp only [Move.reverse, at_edge]
        rw [hrevdiv]
        omega
      · simp only [Move.reverse, target_index]
        omega
      · rw [hq, hr, hrevmod, hrevdiv]
        exact Or.inl ⟨rfl, Or.inr rfl⟩
      unfold Board.update
      rw [hhp]
      dsimp only
      rw [if_neg hedge, hA, hB]
      unfold list_swap
      rw [if_pos (show i < b.cells.length ∧ i + b.side < b.cells.length from ⟨hilt, htlt⟩)]

/-- `update` preserves validity, side, and the cell multiset. -/
theorem update_valid {b b' : Board} (hv : b.Valid) {m : Move}
    (h : b.update m = .ok (some b')) :
    b'.Valid ∧ b'.side = b.side ∧ b'.cells.Perm b.cells ∧
      b'.cells.length = b.cells.length := by
  obtain ⟨i, hfi, hilt, hi0, hedge, hne⟩ := update_spec hv m
  by_cases he : at_edge b.side i m
  · rw [hedge he] at h; cases h
  · obtain ⟨hjlt, hji, _, _, _, heq⟩ := hne he
    rw [heq] at h
    simp only [Except.ok.injEq, Option.some.injEq] at h
    subst h
    have hp := swap_perm b.cells i (target_index b.side i m) hilt hjlt
    refine ⟨⟨hv.1, ?_, ?_⟩, rfl, hp, hp.length_eq⟩
    · simpa [hp.length_eq] using hv.2.1
    · have := hv.2.2
      rw [hp.length_eq]
      exact hp.trans this

/-- C7: on a valid board, `update m` produces no board exactly when the hole
sits at the grid edge in direction `m` (the receiver is untouched — `update`
is a pure function of the board), and otherwise produces a new board, of the
same side, whose cells are those of `b` with the hole and the target
neighbour swapped. -/
theorem c7_update_edge_iff_swap (b : Board) (m : Move) (hv : b.Valid) :
    ∃ i, find_index (fun c => c = 0) b.cells = some i ∧
      (b.update m = .ok none ↔ at_edge b.side i m) ∧
      (¬ at_edge b.side i m →
        b.update m = .ok (some ⟨(b.cells.set i
            (b.cells.getD (target_index b.side i m) 0)).set
            (target_index b.side i m) (b.cells.getD i 0), b.side⟩)) := by
  obtain ⟨i, hfi, hilt, hi0, hedge, hne⟩ := update_spec hv m
  refine ⟨i, hfi, ⟨?_, hedge⟩, fun he => (hne he).2.2.2.2.2⟩
  intro hnone
  by_contra he
  obtain ⟨_, _, _, _, _, heq⟩ := hne he
  rw [heq] at hnone
  cases hnone

/-- A successful `update` is undone exactly by the reversed move. -/
theorem update_roundtrip {b b' : Board} (hv : b.Valid) {m : Move}
    (h : b.update m = .ok (some b')) :
    b'.update m.reverse = .ok (some b) := by
  obtain ⟨i, hfi, hilt, hi0, hedge, hne⟩ := update_spec hv m
  by_cases he : at_edge b.side i m
  · rw [hedge he] at h
    cases h
  obtain ⟨hvd, hside, _, hlen⟩ := update_valid hv h
  obtain ⟨hjlt, hji, hrevedge, hrevtgt, _, heq⟩ := hne he
  have hbeq : b' = ⟨(b.cells.set i
      (b.cells.getD (target_index b.side i m) 0)).set
      (target_index b.side i m) (b.cells.getD i 0), b.side⟩ := by
    have h2 := heq.symm.trans h
    simpa using h2.symm
  obtain ⟨j, hjdef⟩ : ∃ j, target_index b.side i m = j := ⟨_, rfl⟩
  rw [hjdef] at hjlt hji hrevedge hrevtgt hbeq
  obtain ⟨x, hx⟩ : ∃ x, b.cells.getD j 0 = x := ⟨_, rfl⟩
  rw [hx, hi0] at hbeq
  have hxne : x ≠ 0 := by
    intro h0
    exact hji (getD_inj hv.nodup hjlt hilt (by rw [hx, h0, hi0]))
  -- the hole of the updated board is at the target index
  have hslen : b'.cells.length = b.cells.length := hlen
  have hset1len : (b.cells.set i x).length = b.cells.length := by simp
  have hgetj : b'.cells.getD j 0 = 0 := by
    rw [hbeq]
    rw [getD_set _ _ _ _ (by rw [hset1len]; exact hjlt)]
    simp
  have hij_ne : ¬ (i = j) := fun hij => hji hij.symm
  have hgeti : b'.cells.getD i 0 = x := by
    rw [hbeq]
    rw [getD_set _ _ _ _ (by rw [hset1len]; exact hjlt), if_neg hij_ne,
      getD_set _ _ _ _ hilt, if_pos rfl]
  have hgetk : ∀ k, k ≠ j → k ≠ i → b'.cells.getD k 0 = b.cells.getD k 0 := by
    intro k hkj hki
    rw [hbeq]
    rw [getD_set _ _ _ _ (by rw [hset1len]; exact hjlt), if_neg hkj,
      getD_set _ _ _ _ hilt, if_neg hki]
  have hfind : find_index (fun c => decide (c = 0)) b'.cells = some j := by
    apply find_index_eq_some_of
    · rw [hslen]; exact hjlt
    · show decide (b'.cells.getD j 0 = 0) = true
      rw [hgetj]
      decide
    · intro k hk
      have hkj : k ≠ j := by omega
      show decide (b'.cells.getD k 0 = 0) = false
      by_cases hki : k = i
      · subst hki
        rw [hgeti]
        exact decide_eq_false hxne
      · have hk0 : b.cells.getD k 0 ≠ 0 := by
          intro h0
          exact hki (getD_inj hv.nodup (by omega) hilt (by rw [h0, hi0]))
        rw [hgetk k hkj hki]
        exact decide_eq_false hk0
  obtain ⟨i2, hfi2, hilt2, hi02, hedge2, hne2⟩ := update_spec hvd m.reverse
  have hi2j : i2 = j := by
    rw [hfind] at hfi2
    exact (Option.some_inj.mp hfi2).symm
  rw [hi2j] at hne2
  have hne2app := hne2 (by rw [hside]; exact hrevedge)
  obtain ⟨_, _, _, _, _, heq2⟩ := hne2app
  rw [heq2]
  have htgt2 : target_index b'.side j m.reverse = i := by
    rw [hside]
    exact hrevtgt
  rw [htgt2, hgeti, hgetj]
  have hcells : (b'.cells.set j (b'.cells.getD i 0)).set i (b'.cells.getD j 0)
      = b.cells := by
    rw [hgeti, hgetj, hbeq]
    rw [List.set_set]
    rw [List.set_comm _ _ _ hji]
    rw [List.set_set]
    have h1 : b.cells.set i 0 = b.cells := by
      rw [show (0 : Nat) = b.cells.getD i 0 from hi0.symm, set_getD_self]
    rw [h1]
    rw [show x = b.cells.getD j 0 from hx.symm, set_getD_self]
  rw [hgeti, hgetj] at hcells
  rw [hcells, hside]

/-- C10: on a valid board, a successful `update` is undone exactly by the
reversed move: `b.update m = some b'` implies `b'.update m.reverse = some b`. -/
theorem c10_update_reverse_roundtrip {b b' : Board} (hv : b.Valid) {m : Move}
    (h : b.update m = .ok (some b')) :
    b'.update m.reverse = .ok (some b) :=
  update_roundtrip hv h

/-! ### `estimate_cost` machinery -/

/-- The Manhattan distance formula used by `tile_distance`. -/
def manhattan (s g : Nat × Nat) : Nat :=
  (if g.1 < s.1 then s.1 - g.1 else g.1 - s.1) +
  (if g.2 < s.2 then s.2 - g.2 else g.2 - s.2)

theorem manhattan_self (p : Nat × Nat) : manhattan p p = 0 := by
  unfold manhattan
  split_ifs <;> omega

theorem manhattan_adj {p1 p2 : Nat × Nat} (h : adj_pair p1 p2) (g : Nat × Nat) :
    manhattan p1 g ≤ manhattan p2 g + 1 ∧ manhattan p2 g ≤ manhattan p1 g + 1 := by
  obtain ⟨x1, y1⟩ := p1
  obtain ⟨x2, y2⟩ := p2
  obtain ⟨gx, gy⟩ := g
  unfold adj_pair at h
  unfold manhattan
  simp only at h ⊢
  rcases h with ⟨he, hd | hd⟩ | ⟨he, hd | hd⟩ <;>
    exact ⟨by split_ifs <;> omega, by split_ifs <;> omega⟩

theorem find_index_some_of_mem {l : List Nat} {v : Nat} (h : v ∈ l) :
    ∃ i, find_index (fun c => c = v) l = some i ∧ i < l.length ∧ l.getD i 0 = v := by
  cases hfi : find_index (fun c => decide (c = v)) l with
  | none =>
    have := (find_index_eq_none_iff _ _).mp hfi v h
    simp at this
  | some i =>
    obtain ⟨h1, h2, _⟩ := find_index_eq_some _ _ _ hfi
    exact ⟨i, rfl, h1, by simpa using h2⟩

theorem find_index_eq_of_unique {l : List Nat} {v j : Nat} (hnd : l.Nodup)
    (hj : j < l.length) (hv : l.getD j 0 = v) :
    find_index (fun c => c = v) l = some j := by
  obtain ⟨i, hfi, hilt, hgi⟩ := find_index_some_of_mem (hv ▸ getD_mem l j hj)
  rw [hfi]
  exact congrArg some (getD_inj hnd hilt hj (hgi.trans hv.symm))

theorem find_index_congr (p : Nat → Bool) :
    ∀ (l1 l2 : List Nat), l1.length = l2.length →
      (∀ k, k < l1.length → p (l1.getD k 0) = p (l2.getD k 0)) →
      find_index p l1 = find_index p l2 := by
  intro l1
  induction l1 with
  | nil =>
    intro l2 hl _
    cases l2 with
    | nil => rfl
    | cons d ds => simp at hl
  | cons c cs ih =>
    intro l2 hl hk
    cases l2 with
    | nil => simp at hl
    | cons d ds =>
      have h0 := hk 0 (by simp)
      simp only [List.getD_cons_zero] at h0
      simp only [find_index, h0]
      rw [ih ds (by simpa using hl)
        (fun k hk2 => by simpa using hk (k + 1) (by simpa using Nat.succ_lt_succ hk2))]

/-- The tile values `estimate_cost` sums over: `1 .. len - 2`. -/
def est_tiles (b : Board) : List Nat := List.range' 1 (b.cells.length - 1 - 1)

theorem est_tiles_nodup (b : Board) : (est_tiles b).Nodup := by
  unfold est_tiles
  exact List.nodup_range' _ _

theorem tile_distance_eq {b goal : Board} {t ib ig : Nat}
    (hfb : find_index (fun c => c = t) b.cells = some ib)
    (hfg : find_index (fun c => c = t) goal.cells = some ig) :
    b.tile_distance goal t =
      some (manhattan (ib % b.side, ib / b.side) (ig % goal.side, ig / goal.side)) := by
  unfold Board.tile_distance Board.tile_index Board.from_linear_index
  rw [hfb, hfg]
  rfl

theorem tile_distance_isSome {b goal : Board} {t : Nat}
    (hbt : t ∈ b.cells) (hgt : t ∈ goal.cells) :
    (b.tile_distance goal t).isSome = true := by
  obtain ⟨ib, hfb, _, _⟩ := find_index_some_of_mem hbt
  obtain ⟨ig, hfg, _, _⟩ := find_index_some_of_mem hgt
  rw [tile_distance_eq hfb hfg]
  rfl

theorem est_tile_mem {b : Board} (hv : b.Valid) {t : Nat}
    (ht : t ∈ est_tiles b) : t ∈ b.cells := by
  rw [hv.mem_iff]
  unfold est_tiles at ht
  rw [List.mem_range'_1] at ht
  omega

theorem foldl_option_sum (b goal : Board) :
    ∀ (L : List Nat) (a : Nat), (∀ t ∈ L, (b.tile_distance goal t).isSome = true) →
      L.foldl (fun acc tile =>
        match acc, b.tile_distance goal tile with
        | some x, some d => some (x + d)
        | _, _ => none) (some a)
      = some (a + (L.map (fun t => (b.tile_distance goal t).getD 0)).sum) := by
  intro L
  induction L with
  | nil => intro a _; simp
  | cons t ts ih =>
    intro a hall
    obtain ⟨d, hd⟩ := Option.isSome_iff_exists.mp (hall t (by simp))
    simp only [List.foldl_cons, hd]
    rw [ih (a + d) (fun u hu => hall u (by simp [hu]))]
    simp [hd, Nat.add_assoc]

theorem estimate_cost_eq_sum {b goal : Board} (hlen : b.cells.length ≠ 0)
    (hall : ∀ t ∈ est_tiles b, (b.tile_distance goal t).isSome = true) :
    b.estimate_cost goal =
      some (((est_tiles b).map (fun t => (b.tile_distance goal t).getD 0)).sum) := by
  unfold Board.estimate_cost
  rw [if_neg hlen]
  have h := foldl_option_sum b goal (est_tiles b) 0 hall
  unfold est_tiles at h
  rw [h]
  simp [est_tiles]

theorem map_sum_congr {f g : Nat → Nat} (L : List Nat) (h : ∀ t ∈ L, f t = g t) :
    (L.map f).sum = (L.map g).sum := by
  rw [List.map_congr_left h]

theorem sum_one_change_le {f g : Nat → Nat} (v : Nat) :
    ∀ L : List Nat, (∀ t ∈ L, t ≠ v → f t = g t) → f v ≤ g v + 1 →
      L.Nodup → (L.map f).sum ≤ (L.map g).sum + 1 := by
  intro L
  induction L with
  | nil => intro _ _ _; simp
  | cons t ts ih =>
    intro hoff hfv hnd
    rcases List.nodup_cons.mp hnd with ⟨htm, hnd2⟩
    by_cases htv : t = v
    · subst htv
      have hts : ∀ u ∈ ts, f u = g u := fun u hu =>
        hoff u (by simp [hu]) (fun huv => htm (huv ▸ hu))
      simp only [List.map_cons, List.sum_cons]
      rw [map_sum_congr ts hts]
      omega
    · simp only [List.map_cons, List.sum_cons]
      have h1 := ih (fun u hu hun => hoff u (by simp [hu]) hun) hfv hnd2
      have hft : f t = g t := hoff t (by simp) htv
      omega

theorem sum_one_change_eq {f g : Nat → Nat} (v : Nat) :
    ∀ L : List Nat, (∀ t ∈ L, t ≠ v → f t = g t) → v ∈ L → L.Nodup →
      (L.map f).sum + g v = (L.map g).sum + f v := by
  intro L
  induction L with
  | nil => intro _ h _; cases h
  | cons t ts ih =>
    intro hoff hmem hnd
    rcases List.nodup_cons.mp hnd with ⟨htm, hnd2⟩
    by_cases htv : t = v
    · subst htv
      have hts : ∀ u ∈ ts, f u = g u := fun u hu =>
        hoff u (by simp [hu]) (fun huv => htm (huv ▸ hu))
      simp only [List.map_cons, List.sum_cons]
      rw [map_sum_congr ts hts]
      omega
    · rcases List.mem_cons.mp hmem with rfl | hmem2
      · exact absurd rfl htv
      simp only [List.map_cons, List.sum_cons]
      have h1 := ih (fun u hu hun => hoff u (by simp [hu]) hun) hmem2 hnd2
      have hft : f t = g t := hoff t (by simp) htv
      omega

theorem estimate_cost_self {g : Board} (hv : g.Valid) :
    g.estimate_cost g = some 0 := by
  have hlen : g.cells.length ≠ 0 := by
    have h1 := Nat.mul_pos hv.1 hv.1
    have h2 := hv.2.1
    omega
  rw [estimate_cost_eq_sum hlen
    (fun t ht => tile_distance_isSome (est_tile_mem hv ht) (est_tile_mem hv ht))]
  congr 1
  apply List.sum_eq_zero
  intro x hx
  rw [List.mem_map] at hx
  obtain ⟨t, htm, rfl⟩ := hx
  obtain ⟨i, hfi, _, _⟩ := find_index_some_of_mem (est_tile_mem hv htm)
  rw [tile_distance_eq hfi hfi]
  simp [manhattan_self]

/-- Effect of one applicable `update` on `estimate_cost`: only the moved
tile (the cell the hole swaps with) can change its Manhattan term, by at
most one; a move of the skipped top tile `len - 1` leaves the estimate
unchanged. -/
theorem estimate_cost_update {b b2 goal : Board} (hb : b.Valid) (hg : goal.Valid)
    (hside : b.side = goal.side) {m : Move} (h : b.update m = .ok (some b2)) :
    ∃ e e2 i j dj dj2,
      find_index (fun c => c = 0) b.cells = some i ∧
      target_index b.side i m = j ∧
      b.cells.getD j 0 < b.cells.length ∧
      b.estimate_cost goal = some e ∧
      b2.estimate_cost goal = some e2 ∧
      b.tile_distance goal (b.cells.getD j 0) = some dj ∧
      b2.tile_distance goal (b.cells.getD j 0) = some dj2 ∧
      dj2 ≤ dj + 1 ∧ dj ≤ dj2 + 1 ∧
      (b.cells.getD j 0 < b.cells.length - 1 → e2 + dj = e + dj2) ∧
      (b.cells.getD j 0 = b.cells.length - 1 → e2 = e) := by
  obtain ⟨hv2, hside2, hperm2, hlen2⟩ := update_valid hb h
  obtain ⟨i, hfi, hilt, hi0, hedge, hne⟩ := update_spec hb m
  by_cases he : at_edge b.side i m
  · rw [hedge he] at h; cases h
  obtain ⟨hjlt, hji, _, _, hadj, heq⟩ := hne he
  have hbeq : b2 = ⟨(b.cells.set i (b.cells.getD (target_index b.side i m) 0)).set
      (target_index b.side i m) (b.cells.getD i 0), b.side⟩ := by
    have h2 := heq.symm.trans h
    simpa using h2.symm
  obtain ⟨j, hjdef⟩ : ∃ j, target_index b.side i m = j := ⟨_, rfl⟩
  rw [hjdef] at hjlt hji hadj hbeq
  obtain ⟨x, hx⟩ : ∃ x, b.cells.getD j 0 = x := ⟨_, rfl⟩
  rw [hx, hi0] at hbeq
  have hxne : x ≠ 0 := fun h0 =>
    hji (getD_inj hb.nodup hjlt hilt (by rw [hx, h0, hi0]))
  have hij_ne : ¬ (i = j) := fun hij => hji hij.symm
  have hset1len : (b.cells.set i x).length = b.cells.length := by simp
  have hgetj : b2.cells.getD j 0 = 0 := by
    rw [hbeq, getD_set _ _ _ _ (by rw [hset1len]; exact hjlt)]
    simp
  have hgeti : b2.cells.getD i 0 = x := by
    rw [hbeq, getD_set _ _ _ _ (by rw [hset1len]; exact hjlt), if_neg hij_ne,
      getD_set _ _ _ _ hilt, if_pos rfl]
  have hgetk : ∀ k, k ≠ j → k ≠ i → b2.cells.getD k 0 = b.cells.getD k 0 := by
    intro k hkj hki
    rw [hbeq, getD_set _ _ _ _ (by rw [hset1len]; exact hjlt), if_neg hkj,
      getD_set _ _ _ _ hilt, if_neg hki]
  have hlen0 : b.cells.length ≠ 0 := by omega
  have hleng : b.cells.length = goal.cells.length := by
    rw [hb.2.1, hg.2.1, hside]
  have hfbx : find_index (fun c => c = x) b.cells = some j :=
    find_index_eq_of_unique hb.nodup hjlt hx
  have hfb2x : find_index (fun c => c = x) b2.cells = some i :=
    find_index_eq_of_unique hv2.nodup (by omega) hgeti
  have hxmem : x ∈ b.cells := hx ▸ getD_mem _ _ hjlt
  have hxlt : x < b.cells.length := hb.mem_iff.mp hxmem
  have hgx : x ∈ goal.cells := hg.mem_iff.mpr (by omega)
  obtain ⟨ig, hfgx, _, _⟩ := find_index_some_of_mem hgx
  have hdj := tile_distance_eq hfbx hfgx
  have hdj2 := tile_distance_eq hfb2x hfgx
  rw [hside2] at hdj2
  have htiles : est_tiles b2 = est_tiles b := by
    unfold est_tiles; rw [hlen2]
  have hmem2 : ∀ t ∈ est_tiles b, t ∈ b2.cells := by
    intro t ht
    rw [hv2.mem_iff, hlen2]
    exact hb.mem_iff.mp (est_tile_mem hb ht)
  have hmemg : ∀ t ∈ est_tiles b, t ∈ goal.cells := by
    intro t ht
    rw [hg.mem_iff, ← hleng]
    exact hb.mem_iff.mp (est_tile_mem hb ht)
  have hestb := @estimate_cost_eq_sum b goal hlen0
    (fun t ht => tile_distance_isSome (est_tile_mem hb ht) (hmemg t ht))
  have hestb2 := @estimate_cost_eq_sum b2 goal (by omega)
    (fun t ht => tile_distance_isSome (hmem2 t (htiles ▸ ht)) (hmemg t (htiles ▸ ht)))
  rw [htiles] at hestb2
  have hoff : ∀ t ∈ est_tiles b, t ≠ x →
      (b2.tile_distance goal t).getD 0 = (b.tile_distance goal t).getD 0 := by
    intro t ht htx
    have ht1 : 1 ≤ t := by
      have h3 := ht
      unfold est_tiles at h3
      rw [List.mem_range'_1] at h3
      omega
    have hcongr : find_index (fun c => c = t) b2.cells =
        find_index (fun c => c = t) b.cells := by
      apply find_index_congr
      · exact hlen2
      · intro k hk
        rw [hlen2] at hk
        by_cases hkj : k = j
        · subst hkj
          rw [hgetj, hx]
          simp only [decide_eq_decide]
          constructor
          · intro h0; omega
          · intro hxt; exact absurd hxt.symm htx
        · by_cases hki : k = i
          · subst hki
            rw [hgeti, hi0]
            simp only [decide_eq_decide]
            constructor
            · intro hxt; exact absurd hxt.symm htx
            · intro h0; omega
          · rw [hgetk k hkj hki]
    cases hft : find_index (fun c => decide (c = t)) b.cells with
    | none =>
      have h4 := (find_index_eq_none_iff _ _).mp hft t (est_tile_mem hb ht)
      simp at h4
    | some it =>
      obtain ⟨igt, hfgt, _, _⟩ := find_index_some_of_mem (hmemg t ht)
      rw [tile_distance_eq hft hfgt]
      have hcongr2 : find_index (fun c => c = t) b2.cells = some it := by
        rw [hcongr, hft]
      rw [tile_distance_eq hcongr2 hfgt, hside2]
  have hadjm := manhattan_adj hadj (ig % goal.side, ig / goal.side)
  refine ⟨_, _, i, j, _, _, hfi, hjdef, hx ▸ hxlt, hestb, hestb2,
    hx.symm ▸ hdj, hx.symm ▸ hdj2, hadjm.1, hadjm.2, ?_, ?_⟩
  · intro hlt
    rw [hx] at hlt
    have hxin : x ∈ est_tiles b := by
      unfold est_tiles
      rw [List.mem_range'_1]
      omega
    have hsum := sum_one_change_eq x (est_tiles b) hoff hxin (est_tiles_nodup b)
    simp only [hdj, hdj2, Option.getD_some] at hsum
    exact hsum
  · intro heq1
    rw [hx] at heq1
    apply map_sum_congr
    intro t ht
    apply hoff t ht
    have h3 := ht
    unfold est_tiles at h3
    rw [List.mem_range'_1] at h3
    omega

/-- `verify` returns `true` exactly when the replay of the moves reaches the
target. -/
theorem verify_iff_replay (target : Board) :
    ∀ (b : Board) (s : List Move),
      b.verify target s = .ok true ↔ b.replay s = some target := by
  intro b s
  induction s generalizing b with
  | nil =>
    unfold Board.verify Board.replay
    constructor
    · intro h
      simp only [Except.ok.injEq] at h
      rw [of_decide_eq_true h]
    · intro h
      simp only [Option.some.injEq] at h
      rw [h]
      simp
  | cons m ms ih =>
    unfold Board.verify Board.replay
    cases hu : b.update m with
    | error e => simp
    | ok ob =>
      cases ob with
      | none => simp
      | some nb => exact ih nb

/-- The estimate is bounded by the length of any replay that reaches the
goal. -/
theorem est_le_replay {goal : Board} (hg : goal.Valid) :
    ∀ (s : List Move) (b : Board), b.Valid → b.side = goal.side →
      b.replay s = some goal →
      ∃ e, b.estimate_cost goal = some e ∧ e ≤ s.length := by
  intro s
  induction s with
  | nil =>
    intro b hb hside hr
    unfold Board.replay at hr
    simp only [Option.some.injEq] at hr
    subst hr
    exact ⟨0, estimate_cost_self hb, by omega⟩
  | cons m ms ih =>
    intro b hb hside hr
    unfold Board.replay at hr
    cases hu : b.update m with
    | error e => rw [hu] at hr; cases hr
    | ok ob =>
      cases ob with
      | none => rw [hu] at hr; cases hr
      | some nb =>
        rw [hu] at hr
        obtain ⟨hv2, hside2, _, _⟩ := update_valid hb hu
        obtain ⟨e1, he1, hle⟩ := ih nb hv2 (hside2.trans hside) hr
        obtain ⟨e, e2, i, j, dj, dj2, _, _, hxlt, hestb, hestb2, _, _, hd1, hd2,
          hdelta, htop⟩ := estimate_cost_update hb hg hside hu
        rw [he1] at hestb2
        simp only [Option.some.injEq] at hestb2
        subst hestb2
        refine ⟨e, hestb, ?_⟩
        simp only [List.length_cons]
        by_cases hcase : b.cells.getD j 0 = b.cells.length - 1
        · have := htop hcase
          omega
        · have := hdelta (by omega)
          omega

/-- C5: the heuristic is admissible — for valid same-size boards, whenever
`verify` accepts a move sequence, `estimate_cost` is at most its length. -/
theorem c5_estimate_cost_admissible {b goal : Board} (hb : b.Valid)
    (hg : goal.Valid) (hside : b.side = goal.side) {s : List Move}
    (h : b.verify goal s = .ok true) :
    ∃ e, b.estimate_cost goal = some e ∧ e ≤ s.length :=
  est_le_replay hg s b hb hside ((verify_iff_replay goal b s).mp h)

theorem c5_witness :
    ((Board.mk [1, 2, 3, 4, 0, 5, 7, 8, 6] 3).Valid ∧
      (Board.mk [1, 2, 3, 4, 5, 6, 7, 8, 0] 3).Valid ∧
      (Board.mk [1, 2, 3, 4, 0, 5, 7, 8, 6] 3).verify
        (Board.mk [1, 2, 3, 4, 5, 6, 7, 8, 0] 3) [Move.right, Move.down] = .ok true) ∧
    ∃ e, (Board.mk [1, 2, 3, 4, 0, 5, 7, 8, 6] 3).estimate_cost
        (Board.mk [1, 2, 3, 4, 5, 6, 7, 8, 0] 3) = some e ∧
      e ≤ [Move.right, Move.down].length :=
  ⟨⟨by decide, by decide, by decide⟩,
    @c5_estimate_cost_admissible (Board.mk [1, 2, 3, 4, 0, 5, 7, 8, 6] 3)
      (Board.mk [1, 2, 3, 4, 5, 6, 7, 8, 0] 3) (by decide) (by decide) rfl
      [Move.right, Move.down] (by decide)⟩

/-- The estimate described by the specification (for comparison with the
code): the sum over every non-hole tile value `1 .. len - 1` — the full
range — of the Manhattan distance between the tile\u0027s position in `self` and
in `goal`. -/
def spec_estimate (b goal : Board) : Nat :=
  ((List.range' 1 (b.cells.length - 1)).map
    (fun t => (b.tile_distance goal t).getD 0)).sum

theorem spec_estimate_split {b goal : Board} (hlen2 : 2 ≤ b.cells.length) :
    spec_estimate b goal =
      ((est_tiles b).map (fun t => (b.tile_distance goal t).getD 0)).sum +
        (b.tile_distance goal (b.cells.length - 1)).getD 0 := by
  unfold spec_estimate est_tiles
  have hsplit : b.cells.length - 1 = (b.cells.length - 1 - 1) + 1 := by omega
  rw [hsplit, List.range'_concat, List.map_append, List.sum_append]
  have harg : 1 + 1 * (b.cells.length - 1 - 1) = b.cells.length - 1 := by omega
  rw [harg]
  simp
  have harg2 : b.cells.length - 1 - 1 + 1 = b.cells.length - 1 := by omega
  rw [harg2]

/-- C4 fails as stated: on the valid pair below the code computes 0 while
the specified full Manhattan sum is 1 (tile 8, the top tile, is displaced
by one cell but skipped by the loop `1 .. len - 1`). -/
theorem c4_counterexample :
    (Board.mk [1, 2, 3, 4, 5, 6, 7, 0, 8] 3).Valid ∧
    (Board.mk [1, 2, 3, 4, 5, 6, 7, 8, 0] 3).Valid ∧
    (Board.mk [1, 2, 3, 4, 5, 6, 7, 0, 8] 3).side =
      (Board.mk [1, 2, 3, 4, 5, 6, 7, 8, 0] 3).side ∧
    (Board.mk [1, 2, 3, 4, 5, 6, 7, 0, 8] 3).estimate_cost
      (Board.mk [1, 2, 3, 4, 5, 6, 7, 8, 0] 3) = some 0 ∧
    spec_estimate (Board.mk [1, 2, 3, 4, 5, 6, 7, 0, 8] 3)
      (Board.mk [1, 2, 3, 4, 5, 6, 7, 8, 0] 3) = 1 :=
  ⟨by decide, by decide, rfl, by decide, by decide⟩

/-- C4 (amended): `estimate_cost` sums the Manhattan distances of the tile
values `1 .. side² - 2` only — it falls short of the specified sum by
exactly the top tile\u0027s distance — and after a single applicable `update`
the estimate changes by exactly the Manhattan delta of the one tile that
moved when that tile is not the top tile, and is unchanged when it is. -/
theorem c4_estimate_cost_skips_top_tile {b goal : Board} (hb : b.Valid)
    (hg : goal.Valid) (hside : b.side = goal.side) :
    (∃ e dtop, b.estimate_cost goal = some e ∧
      b.tile_distance goal (b.cells.length - 1) = some dtop ∧
      e + dtop = spec_estimate b goal) ∧
    (∀ (m : Move) (b2 : Board), b.update m = .ok (some b2) →
      ∃ i j e e2 dj dj2,
        find_index (fun c => c = 0) b.cells = some i ∧
        target_index b.side i m = j ∧
        b.estimate_cost goal = some e ∧ b2.estimate_cost goal = some e2 ∧
        b.tile_distance goal (b.cells.getD j 0) = some dj ∧
        b2.tile_distance goal (b.cells.getD j 0) = some dj2 ∧
        (b.cells.getD j 0 < b.cells.length - 1 → e2 + dj = e + dj2) ∧
        (b.cells.getD j 0 = b.cells.length - 1 → e2 = e)) := by
  constructor
  · have hlen1 : 0 < b.cells.length := by
      have h1 := Nat.mul_pos hb.1 hb.1
      have h2 := hb.2.1
      omega
    have hleng : b.cells.length = goal.cells.length := by
      rw [hb.2.1, hg.2.1, hside]
    have htm : b.cells.length - 1 ∈ b.cells := hb.mem_iff.mpr (by omega)
    have htg : b.cells.length - 1 ∈ goal.cells := hg.mem_iff.mpr (by omega)
    obtain ⟨ib, hfb, hib, _⟩ := find_index_some_of_mem htm
    obtain ⟨ig, hfg, hig, _⟩ := find_index_some_of_mem htg
    have hdtop := tile_distance_eq hfb hfg
    have hmemg : ∀ t ∈ est_tiles b, t ∈ goal.cells := by
      intro t ht
      rw [hg.mem_iff, ← hleng]
      exact hb.mem_iff.mp (est_tile_mem hb ht)
    have hestb := @estimate_cost_eq_sum b goal (by omega)
      (fun t ht => tile_distance_isSome (est_tile_mem hb ht) (hmemg t ht))
    refine ⟨_, _, hestb, hdtop, ?_⟩
    by_cases hlen2 : 2 ≤ b.cells.length
    · rw [spec_estimate_split hlen2, hdtop]
      simp
    · have hlen1e : b.cells.length = 1 := by omega
      have hib0 : ib = 0 := by omega
      have hig0 : ig = 0 := by
        rw [← hleng] at hig
        omega
      subst hib0
      subst hig0
      have htiles_nil : est_tiles b = ([] : List Nat) := by
        unfold est_tiles
        rw [hlen1e]
        rfl
      have hspec_nil : spec_estimate b goal = 0 := by
        unfold spec_estimate
        rw [hlen1e]
        rfl
      rw [hspec_nil, htiles_nil]
      simp [manhattan, Nat.zero_mod, Nat.zero_div]
  · intro m b2 hu
    obtain ⟨e, e2, i, j, dj, dj2, hfi, hjdef, _, hestb, hestb2, hdj, hdj2,
      _, _, hdelta, htop⟩ := estimate_cost_update hb hg hside hu
    exact ⟨i, j, e, e2, dj, dj2, hfi, hjdef, hestb, hestb2, hdj, hdj2, hdelta, htop⟩

theorem c4_witness :
    ((Board.mk [1, 2, 3, 7, 4, 5, 0, 8, 6] 3).Valid ∧
      (Board.mk [1, 2, 3, 4, 5, 6, 7, 8, 0] 3).Valid ∧
      (Board.mk [1, 2, 3, 7, 4, 5, 0, 8, 6] 3).side =
        (Board.mk [1, 2, 3, 4, 5, 6, 7, 8, 0] 3).side) ∧
    ((∃ e dtop,
        (Board.mk [1, 2, 3, 7, 4, 5, 0, 8, 6] 3).estimate_cost
          (Board.mk [1, 2, 3, 4, 5, 6, 7, 8, 0] 3) = some e ∧
        (Board.mk [1, 2, 3, 7, 4, 5, 0, 8, 6] 3).tile_distance
          (Board.mk [1, 2, 3, 4, 5, 6, 7, 8, 0] 3)
          ((Board.mk [1, 2, 3, 7, 4, 5, 0, 8, 6] 3).cells.length - 1) = some dtop ∧
        e + dtop = spec_estimate (Board.mk [1, 2, 3, 7, 4, 5, 0, 8, 6] 3)
          (Board.mk [1, 2, 3, 4, 5, 6, 7, 8, 0] 3)) ∧
      (∀ (m : Move) (b2 : Board),
        (Board.mk [1, 2, 3, 7, 4, 5, 0, 8, 6] 3).update m = .ok (some b2) →
        ∃ i j e e2 dj dj2,
          find_index (fun c => c = 0)
            (Board.mk [1, 2, 3, 7, 4, 5, 0, 8, 6] 3).cells = some i ∧
          target_index (Board.mk [1, 2, 3, 7, 4, 5, 0, 8, 6] 3).side i m = j ∧
          (Board.mk [1, 2, 3, 7, 4, 5, 0, 8, 6] 3).estimate_cost
            (Board.mk [1, 2, 3, 4, 5, 6, 7, 8, 0] 3) = some e ∧
          b2.estimate_cost (Board.mk [1, 2, 3, 4, 5, 6, 7, 8, 0] 3) = some e2 ∧
          (Board.mk [1, 2, 3, 7, 4, 5, 0, 8, 6] 3).tile_distance
            (Board.mk [1, 2, 3, 4, 5, 6, 7, 8, 0] 3)
            ((Board.mk [1, 2, 3, 7, 4, 5, 0, 8, 6] 3).cells.getD j 0) = some dj ∧
          b2.tile_distance (Board.mk [1, 2, 3, 4, 5, 6, 7, 8, 0] 3)
            ((Board.mk [1, 2, 3, 7, 4, 5, 0, 8, 6] 3).cells.getD j 0) = some dj2 ∧
          ((Board.mk [1, 2, 3, 7, 4, 5, 0, 8, 6] 3).cells.getD j 0 <
              (Board.mk [1, 2, 3, 7, 4, 5, 0, 8, 6] 3).cells.length - 1 →
            e2 + dj = e + dj2) ∧
          ((Board.mk [1, 2, 3, 7, 4, 5, 0, 8, 6] 3).cells.getD j 0 =
              (Board.mk [1, 2, 3, 7, 4, 5, 0, 8, 6] 3).cells.length - 1 →
            e2 = e))) :=
  ⟨⟨by decide, by decide, rfl⟩,
    @c4_estimate_cost_skips_top_tile (Board.mk [1, 2, 3, 7, 4, 5, 0, 8, 6] 3)
      (Board.mk [1, 2, 3, 4, 5, 6, 7, 8, 0] 3) (by decide) (by decide) rfl⟩

/-- C6: `from_vec` accepts the 2-cell vector `[0, 1]` — the binary64
`board_size` check misidentifies 2 as a square because the rounded square
of `sqrt(2.0)` truncates back to 2 — and the resulting board violates
`side * side = length`, contradicting both the stated contract and the doc
comment of `board_size`. -/
theorem c6_from_vec_accepts_non_square :
    Board.from_vec [0, 1] = some ⟨[0, 1], 1⟩ ∧
    (Board.mk [0, 1] 1).side * (Board.mk [0, 1] 1).side ≠
      ([0, 1] : List Nat).length ∧
    board_size 2 = some 1 :=
  ⟨by decide, by decide, by decide⟩

/-- C8: `from_vec` accepts the empty vector, producing a board with no hole;
`update` on it then aborts the program in the hole scan for every move,
rather than signalling the failure by an absent result. -/
theorem c8_empty_board_update_aborts :
    Board.from_vec [] = some ⟨[], 0⟩ ∧
    (∀ m : Move, (Board.mk [] 0).update m =
      .error "There was no hole in that board!") := by
  refine ⟨by decide, ?_⟩
  intro m
  cases m <;> rfl

theorem c7_witness :
    (Board.mk [1, 2, 3, 4, 0, 5, 7, 8, 6] 3).Valid ∧
    (∃ i, find_index (fun c => c = 0)
        (Board.mk [1, 2, 3, 4, 0, 5, 7, 8, 6] 3).cells = some i ∧
      ((Board.mk [1, 2, 3, 4, 0, 5, 7, 8, 6] 3).update Move.right = .ok none ↔
        at_edge (Board.mk [1, 2, 3, 4, 0, 5, 7, 8, 6] 3).side i Move.right) ∧
      (¬ at_edge (Board.mk [1, 2, 3, 4, 0, 5, 7, 8, 6] 3).side i Move.right →
        (Board.mk [1, 2, 3, 4, 0, 5, 7, 8, 6] 3).update Move.right =
          .ok (some ⟨((Board.mk [1, 2, 3, 4, 0, 5, 7, 8, 6] 3).cells.set i
              ((Board.mk [1, 2, 3, 4, 0, 5, 7, 8, 6] 3).cells.getD
                (target_index (Board.mk [1, 2, 3, 4, 0, 5, 7, 8, 6] 3).side i
                  Move.right) 0)).set
              (target_index (Board.mk [1, 2, 3, 4, 0, 5, 7, 8, 6] 3).side i
                Move.right)
              ((Board.mk [1, 2, 3, 4, 0, 5, 7, 8, 6] 3).cells.getD i 0),
            (Board.mk [1, 2, 3, 4, 0, 5, 7, 8, 6] 3).side⟩))) :=
  ⟨by decide, c7_update_edge_iff_swap (Board.mk [1, 2, 3, 4, 0, 5, 7, 8, 6] 3)
    Move.right (by decide)⟩

theorem c10_witness :
    ((Board.mk [1, 2, 3, 4, 0, 5, 7, 8, 6] 3).Valid ∧
      (Board.mk [1, 2, 3, 4, 0, 5, 7, 8, 6] 3).update Move.right =
        .ok (some ⟨[1, 2, 3, 4, 5, 0, 7, 8, 6], 3⟩)) ∧
    (Board.mk [1, 2, 3, 4, 5, 0, 7, 8, 6] 3).update Move.right.reverse =
      .ok (some (Board.mk [1, 2, 3, 4, 0, 5, 7, 8, 6] 3)) :=
  ⟨⟨by decide, by decide⟩,
    c10_update_reverse_roundtrip (by decide) (by decide)⟩

/-! ### Multiset behaviour of the heap operations

The search invariants only need what `push` and `pop` do to the heap as a
multiset: `push` adds its item, `pop` removes one element.  The sift
routines permute the underlying vector, so both facts follow from
permutation lemmas about `List.set`. -/

theorem getD_set_self {α : Type _} (l : List α) (i : Nat) (v d : α) (hi : i < l.length) :
    (l.set i v).getD i d = v := by
  induction l generalizing i with
  | nil => cases hi
  | cons a t ih =>
    cases i with
    | zero => rfl
    | succ n => exact ih n (Nat.lt_of_succ_lt_succ hi)

theorem getD_set_cons_perm {α : Type _} (d x : α) :
    ∀ (t : List α) (k : Nat), k < t.length → (t.getD k d :: t.set k x).Perm (x :: t) := by
  intro t
  induction t with
  | nil => intro k hk; cases hk
  | cons b t ih =>
    intro k hk
    cases k with
    | zero => exact List.Perm.swap x b t
    | succ n =>
      have h1 : (t.getD n d :: b :: t.set n x).Perm (b :: t.getD n d :: t.set n x) :=
        List.Perm.swap b (t.getD n d) (t.set n x)
      have h2 := (ih n (Nat.lt_of_succ_lt_succ hk)).cons b
      exact h1.trans (h2.trans (List.Perm.swap x b t))

theorem set_set_perm {α : Type _} (d x : α) :
    ∀ (l : List α) (i j : Nat), i < l.length → j < l.length → i ≠ j →
      ((l.set i (l.getD j d)).set j x).Perm (l.set i x) := by
  intro l
  induction l with
  | nil => intro i j hi _ _; cases hi
  | cons a t ih =>
    intro i j hi hj hij
    cases i with
    | zero =>
      cases j with
      | zero => exact absurd rfl hij
      | succ n => exact getD_set_cons_perm d x t n (Nat.lt_of_succ_lt_succ hj)
    | succ m =>
      cases j with
      | zero =>
        have hm : m < t.length := Nat.lt_of_succ_lt_succ hi
        have h1 : (t.set m x).getD m d = x := getD_set_self t m x d hm
        have h2 : (t.set m x).set m a = t.set m a := by rw [List.set_set]
        have h3 := getD_set_cons_perm d a (t.set m x) m (by simpa using hm)
        rw [h1, h2] at h3
        exact h3
      | succ n =>
        exact (ih m n (Nat.lt_of_succ_lt_succ hi) (Nat.lt_of_succ_lt_succ hj)
          (fun he => hij (by rw [he]))).cons a

theorem sift_up_perm (le : AstarNode → AstarNode → Bool) (x : AstarNode) :
    ∀ (fuel : Nat) (data : List AstarNode) (pos : Nat), pos < data.length →
      (sift_up le x fuel data pos).Perm (data.set pos x) := by
  intro fuel
  induction fuel with
  | zero => intro data pos _; exact List.Perm.refl _
  | succ f ih =>
    intro data pos hpos
    simp only [sift_up]
    by_cases h1 : pos = 0
    · rw [if_pos h1]
    · rw [if_neg h1]
      by_cases h2 : le x (data.getD ((pos - 1) / 2) dummyNode) = true
      · rw [if_pos h2]
      · rw [if_neg h2]
        have hpar : (pos - 1) / 2 < pos := by
          have := Nat.div_le_self (pos - 1) 2
          omega
        have hlt : (pos - 1) / 2 <
            (data.set pos (data.getD ((pos - 1) / 2) dummyNode)).length := by
          simp only [List.length_set]
          omega
        exact (ih _ _ hlt).trans
          (set_set_perm dummyNode x data pos ((pos - 1) / 2) hpos (by omega) (by omega))

theorem sift_down_perm (le : AstarNode → AstarNode → Bool) (x : AstarNode) :
    ∀ (fuel : Nat) (data : List AstarNode) (pos : Nat), pos < data.length →
      (sift_down le x fuel data pos).Perm (data.set pos x) := by
  intro fuel
  induction fuel with
  | zero => intro data pos hpos; exact sift_up_perm le x _ data pos hpos
  | succ f ih =>
    intro data pos hpos
    simp only [sift_down]
    by_cases h1 : 2 * pos + 1 + 1 < data.length
    · rw [if_pos h1]
      by_cases h2 : le (data.getD (2 * pos + 1) dummyNode)
          (data.getD (2 * pos + 1 + 1) dummyNode) = true
      · rw [if_pos h2]
        refine (ih _ _ ?_).trans
          (set_set_perm dummyNode x data pos (2 * pos + 1 + 1) hpos (by omega) (by omega))
        simp only [List.length_set]
        omega
      · rw [if_neg h2]
        refine (ih _ _ ?_).trans
          (set_set_perm dummyNode x data pos (2 * pos + 1) hpos (by omega) (by omega))
        simp only [List.length_set]
        omega
    · rw [if_neg h1]
      by_cases h3 : 2 * pos + 1 = data.length - 1
      · rw [if_pos h3]
        refine (sift_up_perm le x _ _ _ ?_).trans
          (set_set_perm dummyNode x data pos (2 * pos + 1) hpos (by omega) (by omega))
        simp only [List.length_set]
        omega
      · rw [if_neg h3]
        exact sift_up_perm le x _ data pos hpos

theorem set_append_length {α : Type _} (l : List α) (x v : α) :
    (l ++ [x]).set l.length v = l ++ [v] := by
  induction l with
  | nil => rfl
  | cons a t ih =>
    show a :: (t ++ [x]).set t.length v = a :: (t ++ [v])
    rw [ih]

theorem heap_push_perm (le : AstarNode → AstarNode → Bool) (data : List AstarNode)
    (item : AstarNode) : (heap_push le data item).Perm (data ++ [item]) := by
  unfold heap_push
  have h := sift_up_perm le item (data.length + 1) (data ++ [item]) data.length (by simp)
  rw [set_append_length] at h
  exact h

theorem dropLast_append_getD {α : Type _} (d : α) :
    ∀ (l : List α), l ≠ [] → l.dropLast ++ [l.getD (l.length - 1) d] = l := by
  intro l
  induction l with
  | nil => intro h; exact absurd rfl h
  | cons a t ih =>
    intro _
    cases t with
    | nil => rfl
    | cons b t2 =>
      have h2 := ih (by simp)
      show a :: ((b :: t2).dropLast ++ [(b :: t2).getD (t2.length) d]) = a :: b :: t2
      have h3 : (b :: t2).getD (t2.length) d = (b :: t2).getD ((b :: t2).length - 1) d := by
        simp
      rw [h3, h2]

theorem heap_pop_nil (le : AstarNode → AstarNode → Bool) : heap_pop le [] = none := rfl

theorem heap_pop_some (le : AstarNode → AstarNode → Bool) (data : List AstarNode)
    (hne : data ≠ []) :
    ∃ ret rest, heap_pop le data = some (ret, rest) ∧ (ret :: rest).Perm data := by
  have hlen : ¬ data.length = 0 := fun h => hne (List.length_eq_zero.mp h)
  unfold heap_pop
  rw [if_neg hlen]
  by_cases h2 : data.dropLast.length = 0
  · rw [if_pos h2]
    have hdl : data.dropLast.length = data.length - 1 := List.length_dropLast data
    have hl1 : data.length = 1 := by omega
    obtain ⟨a, ha⟩ := List.length_eq_one.mp hl1
    subst ha
    exact ⟨a, [], rfl, List.Perm.refl _⟩
  · rw [if_neg h2]
    refine ⟨data.dropLast.getD 0 dummyNode, _, rfl, ?_⟩
    obtain ⟨a, t, hat⟩ : ∃ a t, data.dropLast = a :: t := by
      cases hd : data.dropLast with
      | nil => rw [hd] at h2; exact absurd rfl h2
      | cons a t => exact ⟨a, t, rfl⟩
    have hpos : 0 < data.dropLast.length := Nat.pos_of_ne_zero h2
    have hsd := (sift_down_perm le (data.getD (data.length - 1) dummyNode)
      data.dropLast.length data.dropLast 0 hpos).cons (data.dropLast.getD 0 dummyNode)
    refine hsd.trans ?_
    have hlast := dropLast_append_getD dummyNode data hne
    rw [hat]
    show (a :: (data.getD (data.length - 1) dummyNode) :: t).Perm data
    have hswap : (a :: (data.getD (data.length - 1) dummyNode) :: t).Perm
        (a :: (t ++ [data.getD (data.length - 1) dummyNode])) := by
      refine List.Perm.cons a ?_
      exact (List.perm_append_singleton _ _).symm
    refine hswap.trans ?_
    have : a :: (t ++ [data.getD (data.length - 1) dummyNode]) =
        (a :: t) ++ [data.getD (data.length - 1) dummyNode] := rfl
    rw [this, ← hat, hlast]

/-! ### The visited map and `build_path` correctness

`movements` records, for each visited board, the move that produced it (and
`none` for the start).  Entries are only ever appended, so the position of
an entry in the list serves as a well-founded rank: every `Some` entry
points back (via the reversed move) to an entry of strictly smaller index.
`build_path` walks that chain, which both terminates within the supplied
fuel and reconstructs a replayable path from the start. -/

def keyList (mv : List (Board × Option Move)) : List Board := mv.map Prod.fst

theorem map_get_eq_none_iff (mv : List (Board × Option Move)) (b : Board) :
    map_get mv b = none ↔ b ∉ keyList mv := by
  induction mv with
  | nil => simp [map_get, keyList]
  | cons kv rest ih =>
    unfold map_get
    by_cases h : kv.1 = b
    · rw [if_pos h]
      simp [keyList, h.symm]
    · rw [if_neg h]
      simp only [keyList, List.map_cons, List.mem_cons]
      rw [ih]
      constructor
      · intro hn hor
        cases hor with
        | inl he => exact h he.symm
        | inr hm => exact hn hm
      · intro hn
        exact fun hm => hn (Or.inr hm)

theorem map_get_mem {mv : List (Board × Option Move)} {b : Board} {v : Option Move}
    (h : map_get mv b = some v) : (b, v) ∈ mv := by
  induction mv with
  | nil => cases h
  | cons kv rest ih =>
    unfold map_get at h
    by_cases hk : kv.1 = b
    · rw [if_pos hk] at h
      have hv := Option.some_inj.mp h
      subst hv
      have hkv : (b, kv.2) = kv := by rw [← hk]
      rw [hkv]
      exact List.mem_cons_self kv rest
    · rw [if_neg hk] at h
      exact List.mem_cons_of_mem _ (ih h)

theorem map_get_of_nodup :
    ∀ (mv : List (Board × Option Move)), (keyList mv).Nodup →
      ∀ (i : Nat) (hi : i < mv.length),
        map_get mv (mv.get ⟨i, hi⟩).1 = some (mv.get ⟨i, hi⟩).2 := by
  intro mv
  induction mv with
  | nil => intro _ i hi; cases hi
  | cons kv rest ih =>
    intro hnd i hi
    cases i with
    | zero =>
      show map_get (kv :: rest) kv.1 = some kv.2
      unfold map_get
      rw [if_pos rfl]
    | succ n =>
      have hn : n < rest.length := Nat.lt_of_succ_lt_succ hi
      show map_get (kv :: rest) (rest.get ⟨n, hn⟩).1 = some (rest.get ⟨n, hn⟩).2
      have hnotin : kv.1 ∉ keyList rest := by
        have := List.nodup_cons.mp hnd
        exact this.1
      have hne : ¬ kv.1 = (rest.get ⟨n, hn⟩).1 := by
        intro he
        exact hnotin (he ▸ List.mem_map_of_mem Prod.fst (rest.get_mem n hn))
      unfold map_get
      rw [if_neg hne]
      exact ih (List.nodup_cons.mp hnd).2 n hn

theorem key_index {mv : List (Board × Option Move)} {b : Board}
    (h : b ∈ keyList mv) :
    ∃ i, ∃ hi : i < mv.length, (mv.get ⟨i, hi⟩).1 = b := by
  obtain ⟨kv, hkv, hb⟩ := List.mem_map.mp h
  obtain ⟨⟨i, hi⟩, hget⟩ := List.mem_iff_get.mp hkv
  exact ⟨i, hi, by rw [hget, hb]⟩

theorem map_insert_of_none {mv : List (Board × Option Move)} {b : Board}
    (v : Option Move) (h : map_get mv b = none) :
    map_insert mv b v = mv ++ [(b, v)] := by
  unfold map_insert
  rw [h]

/-- The back-pointer chain invariant on the visited map: every `Some m`
entry was produced by playing `m` (a move of the search's move set) from an
earlier entry, and the reversed move leads back to that earlier entry. -/
def ChainInv (M : List Move) (mv : List (Board × Option Move)) : Prop :=
  ∀ (i : Nat) (hi : i < mv.length) (m : Move), (mv.get ⟨i, hi⟩).2 = some m →
    m ∈ M ∧ ∃ j, ∃ hj : j < mv.length, j < i ∧
      (mv.get ⟨j, hj⟩).1.update m = .ok (some (mv.get ⟨i, hi⟩).1) ∧
      (mv.get ⟨i, hi⟩).1.update m.reverse = .ok (some (mv.get ⟨j, hj⟩).1)

theorem get_append_left {α : Type _} (l1 l2 : List α) (i : Nat) (hi : i < l1.length)
    (hi2 : i < (l1 ++ l2).length) : (l1 ++ l2).get ⟨i, hi2⟩ = l1.get ⟨i, hi⟩ := by
  induction l1 generalizing i with
  | nil => cases hi
  | cons a t ih =>
    cases i with
    | zero => rfl
    | succ n => exact ih n (Nat.lt_of_succ_lt_succ hi) (by simp at hi2 ⊢; omega)

theorem get_append_last {α : Type _} (l : List α) (x : α)
    (h : l.length < (l ++ [x]).length) : (l ++ [x]).get ⟨l.length, h⟩ = x := by
  induction l with
  | nil => rfl
  | cons a t ih => exact ih (by simp)

/-- Appending a fresh entry whose predecessor is already a key preserves the
chain invariant. -/
theorem chainInv_append {M : List Move} {mv : List (Board × Option Move)}
    (hch : ChainInv M mv) {b prev : Board} {m : Move} (hm : m ∈ M)
    (hprev : prev ∈ keyList mv)
    (hfwd : prev.update m = .ok (some b)) (hbwd : b.update m.reverse = .ok (some prev)) :
    ChainInv M (mv ++ [(b, some m)]) := by
  intro i hi m2 hm2
  have hlen : (mv ++ [(b, some m)]).length = mv.length + 1 := by simp
  by_cases hilt : i < mv.length
  · rw [get_append_left mv _ i hilt] at hm2 ⊢
    obtain ⟨hmM, j, hj, hji, h1, h2⟩ := hch i hilt m2 hm2
    refine ⟨hmM, j, by omega, hji, ?_, ?_⟩
    · rw [get_append_left mv _ j hj]
      exact h1
    · rw [get_append_left mv _ j hj]
      exact h2
  · have hieq : i = mv.length := by omega
    subst hieq
    rw [get_append_last mv _ hi] at hm2 ⊢
    simp only at hm2
    obtain ⟨rfl⟩ := Option.some_inj.mp hm2
    obtain ⟨j, hj, hjeq⟩ := key_index hprev
    refine ⟨hm, j, by omega, by omega, ?_, ?_⟩
    · rw [get_append_left mv _ j hj, hjeq]
      exact hfwd
    · rw [get_append_left mv _ j hj, hjeq]
      exact hbwd

theorem replay_cons (b : Board) (m : Move) (ms : List Move) :
    b.replay (m :: ms) = match b.update m with
      | .ok (some nb) => nb.replay ms
      | _ => none := rfl

theorem replay_append (s t : List Move) :
    ∀ (b : Board), b.replay (s ++ t) = (b.replay s).bind (fun c => c.replay t) := by
  induction s with
  | nil => intro b; rfl
  | cons m ms ih =>
    intro b
    rw [List.cons_append, replay_cons, replay_cons]
    cases hu : b.update m with
    | error e => rfl
    | ok ob =>
      cases ob with
      | none => rfl
      | some nb => exact ih nb

theorem build_path_loop_none {mv : List (Board × Option Move)} {cursor : Board}
    {fuel : Nat} {acc : List Move} (h : map_get mv cursor = some none) :
    build_path_loop mv (fuel + 1) cursor acc = .ok acc := by
  unfold build_path_loop
  rw [h]

theorem build_path_loop_move {mv : List (Board × Option Move)} {cursor c2 : Board}
    {m : Move} {fuel : Nat} {acc : List Move}
    (h : map_get mv cursor = some (some m))
    (h2 : cursor.update m.reverse = .ok (some c2)) :
    build_path_loop mv (fuel + 1) cursor acc = build_path_loop mv fuel c2 (acc ++ [m]) := by
  conv_lhs => unfold build_path_loop
  rw [h]
  show (match cursor.update m.reverse with
    | Except.ok (some c2) => build_path_loop mv fuel c2 (acc ++ [m])
    | _ => Except.error "We already found this path") = _
  rw [h2]

theorem build_path_entry_none {mv : List (Board × Option Move)} {ending : Board}
    {fuel : Nat} (h : map_get mv ending = some none) :
    build_path mv ending fuel = .ok [] := by
  unfold build_path
  rw [h]

theorem build_path_entry_move {mv : List (Board × Option Move)} {ending cursor : Board}
    {m : Move} {fuel : Nat} {p : List Move}
    (h : map_get mv ending = some (some m))
    (h2 : ending.update m.reverse = .ok (some cursor))
    (h3 : build_path_loop mv fuel cursor [m] = .ok p) :
    build_path mv ending fuel = .ok p.reverse := by
  conv_lhs => unfold build_path
  rw [h]
  show (match ending.update m.reverse with
    | Except.ok (some cursor) =>
      match build_path_loop mv fuel cursor [m] with
      | Except.error e => Except.error e
      | Except.ok path => Except.ok path.reverse
    | _ => Except.error "We already found this path") = _
  rw [h2]
  show (match build_path_loop mv fuel cursor [m] with
    | Except.error e => Except.error e
    | Except.ok path => Except.ok path.reverse) = _
  rw [h3]

theorem build_path_loop_ok {start : Board} {M : List Move}
    {mv : List (Board × Option Move)}
    (hnd : (keyList mv).Nodup) (hns : ∀ kv ∈ mv, kv.2 = none → kv.1 = start)
    (hch : ChainInv M mv) :
    ∀ (fuel i : Nat) (hi : i < mv.length), i < fuel → ∀ acc,
      ∃ q, build_path_loop mv fuel (mv.get ⟨i, hi⟩).1 acc = .ok (acc ++ q) ∧
        (∀ m ∈ q, m ∈ M) ∧ Board.replay start q.reverse = some (mv.get ⟨i, hi⟩).1 := by
  intro fuel
  induction fuel with
  | zero => intro i hi hif; cases hif
  | succ f ih =>
    intro i hi hif acc
    have hmg := map_get_of_nodup mv hnd i hi
    cases hv2 : (mv.get ⟨i, hi⟩).2 with
    | none =>
      rw [hv2] at hmg
      refine ⟨[], ?_, by simp, ?_⟩
      · rw [build_path_loop_none hmg, List.append_nil]
      · have hstart := hns _ (mv.get_mem i hi) hv2
        rw [hstart]
        rfl
    | some m =>
      rw [hv2] at hmg
      obtain ⟨hmM, j, hj, hji, hfwd, hbwd⟩ := hch i hi m hv2
      obtain ⟨q, hq, hqM, hqr⟩ := ih j hj (by omega) (acc ++ [m])
      refine ⟨m :: q, ?_, ?_, ?_⟩
      · rw [build_path_loop_move hmg hbwd, hq, List.append_assoc]
        rfl
      · intro m2 hm2
        cases List.mem_cons.mp hm2 with
        | inl he => rw [he]; exact hmM
        | inr hmem => exact hqM m2 hmem
      · show Board.replay start ((m :: q).reverse) = _
        rw [List.reverse_cons, replay_append, hqr]
        show Board.replay (mv.get ⟨j, hj⟩).1 [m] = some (mv.get ⟨i, hi⟩).1
        rw [replay_cons, hfwd]
        rfl

theorem build_path_ok {start : Board} {M : List Move}
    {mv : List (Board × Option Move)}
    (hnd : (keyList mv).Nodup) (hns : ∀ kv ∈ mv, kv.2 = none → kv.1 = start)
    (hch : ChainInv M mv) {i : Nat} (hi : i < mv.length) {fuel : Nat}
    (hfuel : mv.length ≤ fuel) :
    ∃ q, build_path mv (mv.get ⟨i, hi⟩).1 fuel = .ok q ∧
      (∀ m ∈ q, m ∈ M) ∧ Board.replay start q = some (mv.get ⟨i, hi⟩).1 := by
  have hmg := map_get_of_nodup mv hnd i hi
  cases hv2 : (mv.get ⟨i, hi⟩).2 with
  | none =>
    rw [hv2] at hmg
    refine ⟨[], build_path_entry_none hmg, by simp, ?_⟩
    have hstart := hns _ (mv.get_mem i hi) hv2
    rw [hstart]
    rfl
  | some m =>
    rw [hv2] at hmg
    obtain ⟨hmM, j, hj, hji, hfwd, hbwd⟩ := hch i hi m hv2
    have hj0 : (0 : Nat) < fuel := by omega
    obtain ⟨f2, hf2⟩ : ∃ f2, fuel = f2 + 1 := ⟨fuel - 1, by omega⟩
    obtain ⟨q, hq, hqM, hqr⟩ := build_path_loop_ok hnd hns hch fuel j hj (by omega) [m]
    refine ⟨([m] ++ q).reverse, build_path_entry_move hmg hbwd hq, ?_, ?_⟩
    · intro m2 hm2
      rw [List.mem_reverse] at hm2
      cases List.mem_append.mp hm2 with
      | inl he => rw [List.mem_singleton.mp he]; exact hmM
      | inr hmem => exact hqM m2 hmem
    · have hrev : ([m] ++ q).reverse = q.reverse ++ [m] := by
        rw [List.reverse_append]
        rfl
      rw [hrev, replay_append, hqr]
      show Board.replay (mv.get ⟨j, hj⟩).1 [m] = some (mv.get ⟨i, hi⟩).1
      rw [replay_cons, hfwd]
      rfl

/-- On a valid board `update` never aborts. -/
theorem update_ok {b : Board} (hv : b.Valid) (m : Move) :
    ∃ o, b.update m = .ok o := by
  obtain ⟨i, _, _, _, hedge, hne⟩ := update_spec hv m
  by_cases he : at_edge b.side i m
  · exact ⟨none, hedge he⟩
  · exact ⟨_, (hne he).2.2.2.2.2⟩

/-! ### The search invariant and the inner move loop -/

/-- A visited board all of whose one-move successors over the move set `M`
are themselves visited. -/
def Closed (M : List Move) (mv : List (Board × Option Move)) (b : Board) : Prop :=
  ∀ m ∈ M, ∀ c : Board, b.update m = .ok (some c) → c ∈ keyList mv

theorem Closed.mono {M : List Move} {mv mv2 : List (Board × Option Move)} {b : Board}
    (h : Closed M mv b) (hsub : ∀ a ∈ keyList mv, a ∈ keyList mv2) :
    Closed M mv2 b :=
  fun m hm c hc => hsub c (h m hm c hc)

/-- The search invariant, phrased for the state inside the
`for play in moves` loop: `current` is the board just popped off the
fringe, `fr` the remaining fringe, `mv` the visited map. -/
structure EInv (start goal : Board) (M : List Move) (current : Board)
    (fr : List AstarNode) (mv : List (Board × Option Move)) : Prop where
  start_mem : (start, (none : Option Move)) ∈ mv
  keys_nodup : (keyList mv).Nodup
  none_start : ∀ kv ∈ mv, kv.2 = none → kv.1 = start
  keys_side : ∀ kv ∈ mv, Board.side kv.1 = start.side
  keys_valid : ∀ kv ∈ mv, Board.Valid kv.1
  keys_perm : ∀ kv ∈ mv, (Board.cells kv.1).Perm start.cells
  keys_not_goal : ∀ kv ∈ mv, kv.1 ≠ goal
  chain : ChainInv M mv
  fringe_goal : ∀ n ∈ fr, n.goal = goal
  fringe_keys : ∀ n ∈ fr, n.node ∈ keyList mv
  fringe_nodup : (fr.map AstarNode.node).Nodup
  cur_key : current ∈ keyList mv
  cur_not_fringe : current ∉ fr.map AstarNode.node
  closed : ∀ kv ∈ mv, kv.1 = current ∨ (∃ n ∈ fr, n.node = kv.1) ∨ Closed M mv kv.1

theorem expand_nil (goal current : Board) (d : Nat) (fr : List AstarNode)
    (mv : List (Board × Option Move)) :
    expand goal current d [] fr mv = .ok (.inr (fr, mv)) := rfl

theorem expand_cons_none {goal current : Board} {d : Nat} {play : Move} {rest : List Move}
    {fr : List AstarNode} {mv : List (Board × Option Move)}
    (h : current.update play = .ok none) :
    expand goal current d (play :: rest) fr mv = expand goal current d rest fr mv := by
  conv_lhs => unfold expand
  rw [h]

theorem expand_cons_goal {goal current : Board} {d : Nat} {play : Move}
    {rest : List Move} {fr : List AstarNode} {mv : List (Board × Option Move)}
    {p : List Move}
    (h : current.update play = .ok (some goal))
    (hbp : build_path (map_insert mv goal (some play)) goal
      ((map_insert mv goal (some play)).length + 1) = .ok p) :
    expand goal current d (play :: rest) fr mv = .ok (.inl p) := by
  conv_lhs => unfold expand
  rw [h]
  simp only []
  rw [if_pos trivial, hbp]

theorem expand_cons_seen {goal current next : Board} {d : Nat} {play : Move}
    {rest : List Move} {fr : List AstarNode} {mv : List (Board × Option Move)}
    {v : Option Move}
    (h : current.update play = .ok (some next)) (hg : ¬ next = goal)
    (hseen : map_get mv next = some v) :
    expand goal current d (play :: rest) fr mv = expand goal current d rest fr mv := by
  conv_lhs => unfold expand
  rw [h]
  simp only []
  rw [if_neg hg, hseen]

theorem expand_cons_fresh {goal current next : Board} {d : Nat} {play : Move}
    {rest : List Move} {fr : List AstarNode} {mv : List (Board × Option Move)}
    (h : current.update play = .ok (some next)) (hg : ¬ next = goal)
    (hfresh : map_get mv next = none) :
    expand goal current d (play :: rest) fr mv =
      expand goal current d rest (heap_push nodeLe fr ⟨goal, next, d⟩)
        (map_insert mv next (some play)) := by
  conv_lhs => unfold expand
  rw [h]
  simp only []
  rw [if_neg hg, hfresh]

/-- Running the inner move loop either returns a reconstructed path to the
goal that replays from `start`, or finishes with the invariant restored,
the key set grown by exactly as much as the fringe, and every processed
successor of `current` visited. -/
theorem expand_master {start goal : Board} {M : List Move} {current : Board} {d : Nat} :
    ∀ (ml : List Move), (∀ m ∈ ml, m ∈ M) →
    ∀ (fr : List AstarNode) (mv : List (Board × Option Move)),
      EInv start goal M current fr mv →
      (∃ p, expand goal current d ml fr mv = .ok (.inl p) ∧
        (∀ m ∈ p, m ∈ M) ∧ Board.replay start p = some goal)
      ∨ (∃ fr2 mv2, expand goal current d ml fr mv = .ok (.inr (fr2, mv2)) ∧
        EInv start goal M current fr2 mv2 ∧
        (∀ a ∈ keyList mv, a ∈ keyList mv2) ∧
        fr2.length + mv.length = fr.length + mv2.length ∧
        (∀ m ∈ ml, ∀ c : Board, current.update m = .ok (some c) → c ∈ keyList mv2)) := by
  intro ml
  induction ml with
  | nil =>
    intro _ fr mv hinv
    right
    exact ⟨fr, mv, rfl, hinv, fun a ha => ha, rfl,
      fun m hm => absurd hm (List.not_mem_nil m)⟩
  | cons play rest ih =>
    intro hsub fr mv hinv
    have hplayM : play ∈ M := hsub play (List.mem_cons_self play rest)
    have hrestM : ∀ m ∈ rest, m ∈ M := fun m hm => hsub m (List.mem_cons_of_mem play hm)
    obtain ⟨kvc, hkvc, hkvc1⟩ := List.mem_map.mp hinv.cur_key
    have hcv : current.Valid := hkvc1 ▸ hinv.keys_valid kvc hkvc
    have hcside : current.side = start.side := hkvc1 ▸ hinv.keys_side kvc hkvc
    have hcperm : current.cells.Perm start.cells := hkvc1 ▸ hinv.keys_perm kvc hkvc
    obtain ⟨o, ho⟩ := update_ok hcv play
    cases o with
    | none =>
      rw [expand_cons_none ho]
      rcases ih hrestM fr mv hinv with hL | ⟨fr2, mv2, heq, hinv2, hsub2, hlen2, hcl2⟩
      · left; exact hL
      · right
        refine ⟨fr2, mv2, heq, hinv2, hsub2, hlen2, ?_⟩
        intro m hm c hc
        cases List.mem_cons.mp hm with
        | inl he =>
          rw [he, ho] at hc
          cases hc
        | inr hmem => exact hcl2 m hmem c hc
    | some next =>
      by_cases hg : next = goal
      · subst hg
        left
        have hng : map_get mv next = none := by
          rw [map_get_eq_none_iff]
          intro hmem2
          obtain ⟨kv2, hkv2, hkv21⟩ := List.mem_map.mp hmem2
          exact hinv.keys_not_goal kv2 hkv2 hkv21
        have hins : map_insert mv next (some play) = mv ++ [(next, some play)] :=
          map_insert_of_none _ hng
        have hch2 : ChainInv M (mv ++ [(next, some play)]) :=
          chainInv_append hinv.chain hplayM hinv.cur_key ho (update_roundtrip hcv ho)
        have hkeys2 : keyList (mv ++ [(next, some play)]) = keyList mv ++ [next] := by
          simp [keyList]
        have hnd2 : (keyList (mv ++ [(next, some play)])).Nodup := by
          rw [hkeys2, List.nodup_append]
          refine ⟨hinv.keys_nodup, List.nodup_singleton next, ?_⟩
          intro a ha ha2
          rw [List.mem_singleton.mp ha2] at ha
          exact ((map_get_eq_none_iff mv next).mp hng) ha
        have hns2 : ∀ kv ∈ mv ++ [(next, some play)], kv.2 = none → kv.1 = start := by
          intro kv hkv hnone
          cases List.mem_append.mp hkv with
          | inl h1 => exact hinv.none_start kv h1 hnone
          | inr h2 =>
            rw [List.mem_singleton.mp h2] at hnone
            cases hnone
        have hlenlt : mv.length < (mv ++ [(next, some play)]).length := by simp
        obtain ⟨q, hq, hqM, hqr⟩ := @build_path_ok start M (mv ++ [(next, some play)])
          hnd2 hns2 hch2 mv.length hlenlt ((mv ++ [(next, some play)]).length + 1)
          (by omega)
        rw [get_append_last mv (next, some play) hlenlt] at hq hqr
        simp only [] at hq hqr
        rw [← hins] at hq
        exact ⟨q, expand_cons_goal ho hq, hqM, hqr⟩
      · cases hseen : map_get mv next with
        | some v =>
          rw [expand_cons_seen ho hg hseen]
          have hnextkey : next ∈ keyList mv :=
            List.mem_map_of_mem Prod.fst (map_get_mem hseen)
          rcases ih hrestM fr mv hinv with hL | ⟨fr2, mv2, heq, hinv2, hsub2, hlen2, hcl2⟩
          · left; exact hL
          · right
            refine ⟨fr2, mv2, heq, hinv2, hsub2, hlen2, ?_⟩
            intro m hm c hc
            cases List.mem_cons.mp hm with
            | inl he =>
              rw [he, ho] at hc
              simp only [Except.ok.injEq, Option.some.injEq] at hc
              rw [← hc]
              exact hsub2 next hnextkey
            | inr hmem => exact hcl2 m hmem c hc
        | none =>
          rw [expand_cons_fresh ho hg hseen]
          have hnotmem : next ∉ keyList mv := (map_get_eq_none_iff mv next).mp hseen
          have hins : map_insert mv next (some play) = mv ++ [(next, some play)] :=
            map_insert_of_none _ hseen
          have hkeys2 : keyList (mv ++ [(next, some play)]) = keyList mv ++ [next] := by
            simp [keyList]
          have hsubkeys : ∀ a ∈ keyList mv, a ∈ keyList (mv ++ [(next, some play)]) := by
            intro a ha
            rw [hkeys2]
            exact List.mem_append_left _ ha
          obtain ⟨hnv, hnside, hnperm, hnlen⟩ := update_valid hcv ho
          have hpp := heap_push_perm nodeLe fr ⟨goal, next, d⟩
          have hfr2mem : ∀ n ∈ heap_push nodeLe fr ⟨goal, next, d⟩,
              n ∈ fr ∨ n = ⟨goal, next, d⟩ := by
            intro n hn
            have := hpp.mem_iff.mp hn
            cases List.mem_append.mp this with
            | inl h1 => exact Or.inl h1
            | inr h2 => exact Or.inr (List.mem_singleton.mp h2)
          have hnode_mem : (⟨goal, next, d⟩ : AstarNode) ∈ heap_push nodeLe fr
              ⟨goal, next, d⟩ := by
            rw [hpp.mem_iff]
            exact List.mem_append_right _ (List.mem_singleton.mpr rfl)
          have hmapperm : ((heap_push nodeLe fr ⟨goal, next, d⟩).map AstarNode.node).Perm
              (fr.map AstarNode.node ++ [next]) := by
            have := hpp.map AstarNode.node
            simpa using this
          have hinv2 : EInv start goal M current
              (heap_push nodeLe fr ⟨goal, next, d⟩) (mv ++ [(next, some play)]) := by
            refine ⟨List.mem_append_left _ hinv.start_mem, ?_, ?_, ?_, ?_, ?_, ?_, ?_,
              ?_, ?_, ?_, ?_, ?_, ?_⟩
            · rw [hkeys2, List.nodup_append]
              refine ⟨hinv.keys_nodup, List.nodup_singleton next, ?_⟩
              intro a ha ha2
              rw [List.mem_singleton.mp ha2] at ha
              exact hnotmem ha
            · intro kv hkv hnone
              cases List.mem_append.mp hkv with
              | inl h1 => exact hinv.none_start kv h1 hnone
              | inr h2 =>
                rw [List.mem_singleton.mp h2] at hnone
                cases hnone
            · intro kv hkv
              cases List.mem_append.mp hkv with
              | inl h1 => exact hinv.keys_side kv h1
              | inr h2 =>
                rw [List.mem_singleton.mp h2]
                rw [show ((next, some play) : Board × Option Move).1 = next from rfl]
                rw [hnside, hcside]
            · intro kv hkv
              cases List.mem_append.mp hkv with
              | inl h1 => exact hinv.keys_valid kv h1
              | inr h2 =>
                rw [List.mem_singleton.mp h2]
                exact hnv
            · intro kv hkv
              cases List.mem_append.mp hkv with
              | inl h1 => exact hinv.keys_perm kv h1
              | inr h2 =>
                rw [List.mem_singleton.mp h2]
                exact hnperm.trans hcperm
            · intro kv hkv
              cases List.mem_append.mp hkv with
              | inl h1 => exact hinv.keys_not_goal kv h1
              | inr h2 =>
                rw [List.mem_singleton.mp h2]
                exact hg
            · exact chainInv_append hinv.chain hplayM hinv.cur_key ho
                (update_roundtrip hcv ho)
            · intro n hn
              cases hfr2mem n hn with
              | inl h1 => exact hinv.fringe_goal n h1
              | inr h2 => rw [h2]
            · intro n hn
              cases hfr2mem n hn with
              | inl h1 => exact hsubkeys _ (hinv.fringe_keys n h1)
              | inr h2 =>
                rw [h2, hkeys2]
                exact List.mem_append_right _ (List.mem_singleton.mpr rfl)
            · rw [hmapperm.nodup_iff, List.nodup_append]
              refine ⟨hinv.fringe_nodup, List.nodup_singleton next, ?_⟩
              intro a ha ha2
              rw [List.mem_singleton.mp ha2] at ha
              have hamem : ∃ n ∈ fr, AstarNode.node n = next := by
                obtain ⟨n, hn, hne⟩ := List.mem_map.mp ha
                exact ⟨n, hn, hne⟩
              obtain ⟨n, hn, hne⟩ := hamem
              exact hnotmem (hne ▸ hinv.fringe_keys n hn)
            · exact hsubkeys _ hinv.cur_key
            · intro hcur
              rw [hmapperm.mem_iff] at hcur
              cases List.mem_append.mp hcur with
              | inl h1 => exact hinv.cur_not_fringe h1
              | inr h2 =>
                exact hnotmem ((List.mem_singleton.mp h2) ▸ hinv.cur_key)
            · intro kv hkv
              cases List.mem_append.mp hkv with
              | inl h1 =>
                rcases hinv.closed kv h1 with hA | hB | hC
                · exact Or.inl hA
                · right; left
                  obtain ⟨n, hn, hne⟩ := hB
                  refine ⟨n, ?_, hne⟩
                  rw [hpp.mem_iff]
                  exact List.mem_append_left _ hn
                · exact Or.inr (Or.inr (hC.mono hsubkeys))
              | inr h2 =>
                right; left
                rw [List.mem_singleton.mp h2]
                exact ⟨⟨goal, next, d⟩, hnode_mem, rfl⟩
          rcases ih hrestM _ _ hinv2 with hL | ⟨fr3, mv3, heq, hinv3, hsub3, hlen3, hcl3⟩
          · left
            rw [hins]
            exact hL
          · right
            refine ⟨fr3, mv3, by rw [hins]; exact heq, hinv3, ?_, ?_, ?_⟩
            · intro a ha
              exact hsub3 a (hsubkeys a ha)
            · have hfr2len : (heap_push nodeLe fr ⟨goal, next, d⟩).length =
                  fr.length + 1 := by
                rw [hpp.length_eq]
                simp
              have hmv2len : (mv ++ [(next, some play)]).length = mv.length + 1 := by
                simp
              omega
            · intro m hm c hc
              cases List.mem_cons.mp hm with
              | inl he =>
                rw [he, ho] at hc
                simp only [Except.ok.injEq, Option.some.injEq] at hc
                rw [← hc]
                refine hsub3 next ?_
                rw [hkeys2]
                exact List.mem_append_right _ (List.mem_singleton.mpr rfl)
              | inr hmem => exact hcl3 m hmem c hc

/-! ### The outer search loop -/

/-- The search invariant between iterations of the `while let` loop. -/
structure SInv (start goal : Board) (M : List Move)
    (fr : List AstarNode) (mv : List (Board × Option Move)) : Prop where
  start_mem : (start, (none : Option Move)) ∈ mv
  keys_nodup : (keyList mv).Nodup
  none_start : ∀ kv ∈ mv, kv.2 = none → kv.1 = start
  keys_side : ∀ kv ∈ mv, Board.side kv.1 = start.side
  keys_valid : ∀ kv ∈ mv, Board.Valid kv.1
  keys_perm : ∀ kv ∈ mv, (Board.cells kv.1).Perm start.cells
  keys_not_goal : ∀ kv ∈ mv, kv.1 ≠ goal
  chain : ChainInv M mv
  fringe_goal : ∀ n ∈ fr, n.goal = goal
  fringe_keys : ∀ n ∈ fr, n.node ∈ keyList mv
  fringe_nodup : (fr.map AstarNode.node).Nodup
  closed : ∀ kv ∈ mv, (∃ n ∈ fr, n.node = kv.1) ∨ Closed M mv kv.1

theorem a_star_loop_pop_none {goal : Board} {moves : List Move} {fuel : Nat}
    {fringe : List AstarNode} {mv : List (Board × Option Move)}
    (h : heap_pop nodeLe fringe = none) :
    a_star_loop goal moves (fuel + 1) fringe mv = .ok (some none) := by
  conv_lhs => unfold a_star_loop
  rw [h]

theorem a_star_loop_found {goal : Board} {moves : List Move} {fuel : Nat}
    {fringe fr2 : List AstarNode} {mv : List (Board × Option Move)}
    {n : AstarNode} {p : List Move}
    (h : heap_pop nodeLe fringe = some (n, fr2))
    (he : expand goal n.node (n.path_len + 1) moves fr2 mv = .ok (.inl p)) :
    a_star_loop goal moves (fuel + 1) fringe mv = .ok (some (some p)) := by
  conv_lhs => unfold a_star_loop
  rw [h]
  simp only []
  rw [he]

theorem a_star_loop_step {goal : Board} {moves : List Move} {fuel : Nat}
    {fringe fr2 fr3 : List AstarNode} {mv mv3 : List (Board × Option Move)}
    {n : AstarNode}
    (h : heap_pop nodeLe fringe = some (n, fr2))
    (he : expand goal n.node (n.path_len + 1) moves fr2 mv = .ok (.inr (fr3, mv3))) :
    a_star_loop goal moves (fuel + 1) fringe mv = a_star_loop goal moves fuel fr3 mv3 := by
  conv_lhs => unfold a_star_loop
  rw [h]
  simp only []
  rw [he]

/-- Distinct visited keys are distinct permutations of `start.cells`, so the
visited map can never outgrow `(start.cells.length)!`. -/
theorem keys_count {start : Board} {mv : List (Board × Option Move)}
    (hnd : (keyList mv).Nodup)
    (hside : ∀ kv ∈ mv, Board.side kv.1 = start.side)
    (hperm : ∀ kv ∈ mv, (Board.cells kv.1).Perm start.cells) :
    mv.length ≤ Nat.factorial start.cells.length := by
  have hinj : ∀ x ∈ keyList mv, ∀ y ∈ keyList mv, Board.cells x = Board.cells y → x = y := by
    intro x hx y hy hcells
    obtain ⟨kx, hkx, hkx1⟩ := List.mem_map.mp hx
    obtain ⟨ky, hky, hky1⟩ := List.mem_map.mp hy
    have hxs : x.side = start.side := hkx1 ▸ hside kx hkx
    have hys : y.side = start.side := hky1 ▸ hside ky hky
    cases x with
    | mk cx sx =>
      cases y with
      | mk cy sy =>
        simp only [] at hcells hxs hys
        rw [show cx = cy from hcells, show sx = sy from hxs.trans hys.symm]
  have hnd2 : ((keyList mv).map Board.cells).Nodup := hnd.map_on hinj
  have hsubset : ∀ c ∈ (keyList mv).map Board.cells, c ∈ start.cells.permutations := by
    intro c hc
    obtain ⟨b, hb, hb1⟩ := List.mem_map.mp hc
    obtain ⟨kb, hkb, hkb1⟩ := List.mem_map.mp hb
    rw [← hb1, List.mem_permutations]
    exact hkb1 ▸ hperm kb hkb
  have hle := (hnd2.subperm hsubset).length_le
  rw [List.length_permutations] at hle
  simpa [keyList] using hle

/-- If every visited board is closed under the move set, replays from a
visited board can never leave the visited set. -/
theorem closed_keys_replay {M : List Move} {mv : List (Board × Option Move)}
    (hclosed : ∀ kv ∈ mv, Closed M mv kv.1) :
    ∀ (s : List Move), (∀ m ∈ s, m ∈ M) → ∀ b, b ∈ keyList mv →
      ∀ c, Board.replay b s = some c → c ∈ keyList mv := by
  intro s
  induction s with
  | nil =>
    intro _ b hb c hc
    have hbc : b = c := by
      have : some b = some c := hc
      exact Option.some_inj.mp this
    rw [← hbc]
    exact hb
  | cons m ms ih =>
    intro hsM b hb c hc
    rw [replay_cons] at hc
    cases hu : b.update m with
    | error e =>
      rw [hu] at hc
      exact Option.noConfusion hc
    | ok ob =>
      cases ob with
      | none =>
        rw [hu] at hc
        exact Option.noConfusion hc
      | some nb =>
        rw [hu] at hc
        obtain ⟨kb, hkb, hkb1⟩ := List.mem_map.mp hb
        have hu2 : kb.1.update m = .ok (some nb) := by rw [hkb1]; exact hu
        have hnb : nb ∈ keyList mv :=
          hclosed kb hkb m (hsM m (List.mem_cons_self m ms)) nb hu2
        exact ih (fun m2 hm2 => hsM m2 (List.mem_cons_of_mem m hm2)) nb hnb c hc

theorem closed_unreachable {M : List Move} {mv : List (Board × Option Move)}
    (hclosed : ∀ kv ∈ mv, Closed M mv kv.1) {start goal : Board}
    (hs : start ∈ keyList mv) (hg : goal ∉ keyList mv) :
    ∀ s, (∀ m ∈ s, m ∈ M) → Board.replay start s ≠ some goal := by
  intro s hsM hrep
  exact hg (closed_keys_replay hclosed s hsM start hs goal hrep)

/-- The master theorem about the search loop: with the invariant
established and enough fuel, the loop either returns a path that replays
from `start` to `goal`, or returns the `None` of an exhausted fringe — and
then the goal is unreachable from `start` using the move set.  In
particular the loop never aborts and never runs out of fuel. -/
theorem a_star_loop_master {start goal : Board} {M : List Move} :
    ∀ (fuel : Nat) (fr : List AstarNode) (mv : List (Board × Option Move)),
      SInv start goal M fr mv →
      fr.length + (Nat.factorial start.cells.length - mv.length) < fuel →
      (∃ p, a_star_loop goal M fuel fr mv = .ok (some (some p)) ∧
        (∀ m ∈ p, m ∈ M) ∧ Board.replay start p = some goal)
      ∨ (a_star_loop goal M fuel fr mv = .ok (some none) ∧
        ∀ s, (∀ m ∈ s, m ∈ M) → Board.replay start s ≠ some goal) := by
  intro fuel
  induction fuel with
  | zero => intro fr mv _ hlt; exact absurd hlt (Nat.not_lt_zero _)
  | succ f ih =>
    intro fr mv hinv hlt
    by_cases hfr : fr = []
    · subst hfr
      right
      constructor
      · exact a_star_loop_pop_none (heap_pop_nil nodeLe)
      · have hclosed : ∀ kv ∈ mv, Closed M mv kv.1 := by
          intro kv hkv
          rcases hinv.closed kv hkv with ⟨n, hn, _⟩ | hC
          · cases hn
          · exact hC
        refine closed_unreachable hclosed ?_ ?_
        · exact List.mem_map_of_mem Prod.fst hinv.start_mem
        · intro hgmem
          obtain ⟨kv, hkv, hkv1⟩ := List.mem_map.mp hgmem
          exact hinv.keys_not_goal kv hkv hkv1
    · obtain ⟨n, rest, hpop, hperm⟩ := heap_pop_some nodeLe fr hfr
      have hmemfr : ∀ x ∈ (n :: rest), x ∈ fr := fun x hx => hperm.mem_iff.mp hx
      have hnfr : n ∈ fr := hmemfr n (List.mem_cons_self n rest)
      have hmapnd : ((n :: rest).map AstarNode.node).Nodup :=
        ((hperm.map AstarNode.node).nodup_iff).mpr hinv.fringe_nodup
      have hrestnd := (List.nodup_cons.mp hmapnd).2
      have hnnotrest := (List.nodup_cons.mp hmapnd).1
      have heinv : EInv start goal M n.node rest mv := by
        refine ⟨hinv.start_mem, hinv.keys_nodup, hinv.none_start, hinv.keys_side,
          hinv.keys_valid, hinv.keys_perm, hinv.keys_not_goal, hinv.chain,
          ?_, ?_, hrestnd, hinv.fringe_keys n hnfr, hnnotrest, ?_⟩
        · intro x hx
          exact hinv.fringe_goal x (hmemfr x (List.mem_cons_of_mem n hx))
        · intro x hx
          exact hinv.fringe_keys x (hmemfr x (List.mem_cons_of_mem n hx))
        · intro kv hkv
          rcases hinv.closed kv hkv with ⟨x, hx, hxe⟩ | hC
          · have hx2 : x ∈ n :: rest := hperm.mem_iff.mpr hx
            cases List.mem_cons.mp hx2 with
            | inl he =>
              left
              rw [← hxe, he]
            | inr hmem =>
              right; left
              exact ⟨x, hmem, hxe⟩
          · exact Or.inr (Or.inr hC)
      rcases @expand_master start goal M n.node (n.path_len + 1) M (fun m hm => hm)
          rest mv heinv with ⟨p, hep, hpM, hpr⟩ |
          ⟨fr2, mv2, hep, hinv2, hsub2, hlen2, hproc⟩
      · left
        exact ⟨p, a_star_loop_found hpop hep, hpM, hpr⟩
      · have hsinv2 : SInv start goal M fr2 mv2 := by
          refine ⟨hinv2.start_mem, hinv2.keys_nodup, hinv2.none_start, hinv2.keys_side,
            hinv2.keys_valid, hinv2.keys_perm, hinv2.keys_not_goal, hinv2.chain,
            hinv2.fringe_goal, hinv2.fringe_keys, hinv2.fringe_nodup, ?_⟩
          intro kv hkv
          rcases hinv2.closed kv hkv with hA | hB | hC
          · right
            intro m hm c hc
            rw [hA] at hc
            exact hproc m hm c hc
          · exact Or.inl hB
          · exact Or.inr hC
        have hcount2 : mv2.length ≤ Nat.factorial start.cells.length :=
          keys_count hsinv2.keys_nodup hsinv2.keys_side hsinv2.keys_perm
        have hmvle : mv.length ≤ mv2.length := by
          have h1 := (hinv.keys_nodup.subperm hsub2).length_le
          rw [keyList, keyList, List.length_map, List.length_map] at h1
          exact h1
        have hrest : rest.length + 1 = fr.length := by
          have h2 := hperm.length_eq
          simpa using h2
        rw [a_star_loop_step hpop hep]
        exact ih fr2 mv2 hsinv2 (by omega)

/-! ### Top-level `a_star` -/

theorem a_star_eq_of_eq {start goal : Board} {moves : List Move} (h : start = goal) :
    a_star start goal moves = .ok (some (some [])) := by
  unfold a_star
  rw [if_pos h]

theorem a_star_eq_of_ne {start goal : Board} {moves : List Move} (h : ¬ start = goal) :
    a_star start goal moves = a_star_loop goal moves
      (Nat.factorial start.cells.length + 2)
      (heap_push nodeLe [] ⟨goal, start, 0⟩) [(start, none)] := by
  unfold a_star
  rw [if_neg h]

theorem heap_push_nil (le : AstarNode → AstarNode → Bool) (x : AstarNode) :
    heap_push le [] x = [x] := rfl

/-- The invariant holds for the initial fringe and visited map. -/
theorem sInv_init {start goal : Board} (M : List Move) (hsv : start.Valid)
    (hne : start ≠ goal) :
    SInv start goal M [⟨goal, start, 0⟩] [(start, none)] := by
  refine ⟨List.mem_singleton.mpr rfl, by simp [keyList], ?_, ?_, ?_, ?_, ?_, ?_,
    ?_, ?_, by simp, ?_⟩
  · intro kv hkv _
    rw [List.mem_singleton.mp hkv]
  · intro kv hkv
    rw [List.mem_singleton.mp hkv]
  · intro kv hkv
    rw [List.mem_singleton.mp hkv]
    exact hsv
  · intro kv hkv
    rw [List.mem_singleton.mp hkv]
  · intro kv hkv
    rw [List.mem_singleton.mp hkv]
    exact hne
  · intro i hi m hm
    have hi0 : i = 0 := by
      have : i < 1 := by simpa using hi
      omega
    subst hi0
    exact Option.noConfusion hm
  · intro n hn
    rw [List.mem_singleton.mp hn]
  · intro n hn
    rw [List.mem_singleton.mp hn]
    simp [keyList]
  · intro kv hkv
    left
    refine ⟨⟨goal, start, 0⟩, List.mem_singleton.mpr rfl, ?_⟩
    rw [List.mem_singleton.mp hkv]

/-- Soundness of `a_star`: a returned move sequence is drawn from the move
set and replays from `start` to `goal`. -/
theorem a_star_sound {start goal : Board} {moves : List Move} {p : List Move}
    (hsv : start.Valid) (h : a_star start goal moves = .ok (some (some p))) :
    (∀ m ∈ p, m ∈ moves) ∧ Board.replay start p = some goal := by
  by_cases hne : start = goal
  · rw [a_star_eq_of_eq hne] at h
    have hp : ([] : List Move) = p := by
      simpa using h
    rw [← hp]
    refine ⟨by simp, ?_⟩
    show some start = some goal
    rw [hne]
  · have hfuel : ([⟨goal, start, 0⟩] : List AstarNode).length +
        (Nat.factorial start.cells.length -
          ([(start, (none : Option Move))] : List (Board × Option Move)).length) <
        Nat.factorial start.cells.length + 2 := by
      simp only [List.length_singleton]
      omega
    rw [a_star_eq_of_ne hne, heap_push_nil] at h
    rcases a_star_loop_master _ _ _ (sInv_init moves hsv hne) hfuel with
        ⟨p2, h2, hpM, hrep⟩ | ⟨h2, _⟩
    · rw [h2] at h
      have hp : p2 = p := by simpa using h
      rw [← hp]
      exact ⟨hpM, hrep⟩
    · rw [h2] at h
      simp at h

/-- Exhaustive failure of `a_star`: the `None` return happens exactly when
no sequence over the move set reaches the goal. -/
theorem a_star_none_iff {start goal : Board} {moves : List Move} (hsv : start.Valid) :
    a_star start goal moves = .ok (some none) ↔
      ¬ ∃ s : List Move, (∀ m ∈ s, m ∈ moves) ∧ Board.replay start s = some goal := by
  by_cases hne : start = goal
  · rw [a_star_eq_of_eq hne]
    constructor
    · intro h
      simp at h
    · intro h
      exfalso
      refine h ⟨[], by simp, ?_⟩
      show some start = some goal
      rw [hne]
  · have hfuel : ([⟨goal, start, 0⟩] : List AstarNode).length +
        (Nat.factorial start.cells.length -
          ([(start, (none : Option Move))] : List (Board × Option Move)).length) <
        Nat.factorial start.cells.length + 2 := by
      simp only [List.length_singleton]
      omega
    rw [a_star_eq_of_ne hne, heap_push_nil]
    rcases a_star_loop_master _ _ _ (sInv_init moves hsv hne) hfuel with
        ⟨p, h2, hpM, hrep⟩ | ⟨h2, hunr⟩
    · rw [h2]
      constructor
      · intro h
        simp at h
      · intro h
        exact absurd ⟨p, hpM, hrep⟩ h
    · rw [h2]
      constructor
      · intro _ hex
        obtain ⟨s, hsM, hsrep⟩ := hex
        exact hunr s hsM hsrep
      · intro _
        rfl

/-! ### The search claims -/

/-- C9: with goal board `[1,2,3,4,5,6,7,8,0]` and the full four-move set,
`a_star` applied to start board `[1,2,3,4,0,5,7,8,6]` returns exactly the
two-move sequence `[Right, Down]` — both with the test suite's move order
`[Up, Down, Left, Right]` and with the `ALL_MOVES` order
`[Left, Right, Up, Down]`. -/
theorem c9_board_1_solution :
    a_star ⟨[1, 2, 3, 4, 0, 5, 7, 8, 6], 3⟩ ⟨[1, 2, 3, 4, 5, 6, 7, 8, 0], 3⟩
      [Move.up, Move.down, Move.left, Move.right] =
      .ok (some (some [Move.right, Move.down])) ∧
    a_star ⟨[1, 2, 3, 4, 0, 5, 7, 8, 6], 3⟩ ⟨[1, 2, 3, 4, 5, 6, 7, 8, 0], 3⟩
      ALL_MOVES = .ok (some (some [Move.right, Move.down])) :=
  ⟨by decide, by decide⟩

/-- C1 counterexample: on a pair of valid 3×3 boards of the same size, with
move set `[Left, Right, Down, Up]`, `a_star` returns a 14-move sequence even
though a 12-move sequence over the same move set transforms the start into
the goal — the returned sequence is not minimal-length. -/
theorem c1_counterexample :
    a_star ⟨[0, 4, 5, 2, 3, 1, 7, 8, 6], 3⟩ ⟨[1, 2, 3, 4, 5, 6, 7, 8, 0], 3⟩
      [Move.left, Move.right, Move.down, Move.up] =
      .ok (some (some [Move.right, Move.right, Move.down, Move.left, Move.up,
        Move.right, Move.down, Move.left, Move.left, Move.up, Move.right,
        Move.down, Move.right, Move.down])) ∧
    Board.replay ⟨[0, 4, 5, 2, 3, 1, 7, 8, 6], 3⟩
      [Move.right, Move.down, Move.right, Move.up, Move.left, Move.down,
        Move.left, Move.up, Move.right, Move.down, Move.right, Move.down] =
      some ⟨[1, 2, 3, 4, 5, 6, 7, 8, 0], 3⟩ ∧
    (∀ m ∈ [Move.right, Move.down, Move.right, Move.up, Move.left, Move.down,
        Move.left, Move.up, Move.right, Move.down, Move.right, Move.down],
      m ∈ [Move.left, Move.right, Move.down, Move.up]) ∧
    Board.Valid ⟨[0, 4, 5, 2, 3, 1, 7, 8, 6], 3⟩ ∧
    Board.Valid ⟨[1, 2, 3, 4, 5, 6, 7, 8, 0], 3⟩ :=
  ⟨by decide, by decide, by decide, by decide, by decide⟩

/-- C1 (amended): for valid boards `start` and `goal` of the same size and
any move set, a sequence returned by `a_star` is drawn from the move set and
does transform `start` into `goal`; minimality, however, does not hold (see
the counterexample). -/
theorem c1_a_star_sound {start goal : Board} {moves : List Move} {p : List Move}
    (hsv : start.Valid) ( _hgv : goal.Valid) ( _hside : goal.side = start.side)
    (h : a_star start goal moves = .ok (some (some p))) :
    (∀ m ∈ p, m ∈ moves) ∧ Board.replay start p = some goal :=
  a_star_sound hsv h

theorem c1_witness :
    (∀ m ∈ [Move.up, Move.right, Move.right, Move.down],
        m ∈ [Move.up, Move.down, Move.left, Move.right]) ∧
    Board.replay ⟨[1, 2, 3, 7, 4, 5, 0, 8, 6], 3⟩
      [Move.up, Move.right, Move.right, Move.down] =
      some ⟨[1, 2, 3, 4, 5, 6, 7, 8, 0], 3⟩ :=
  c1_a_star_sound (by decide) (by decide) (by decide) (by decide)

/-- C2: for valid boards `start` and `goal` and any move set, every sequence
that `a_star` returns replays successfully against `start`:
`start.verify goal p` yields `true`. -/
theorem c2_a_star_verify {start goal : Board} {moves : List Move} {p : List Move}
    (hsv : start.Valid) ( _hgv : goal.Valid)
    (h : a_star start goal moves = .ok (some (some p))) :
    start.verify goal p = .ok true :=
  (verify_iff_replay goal start p).mpr (a_star_sound hsv h).2

theorem c2_witness :
    Board.verify ⟨[1, 2, 3, 4, 0, 5, 7, 8, 6], 3⟩ ⟨[1, 2, 3, 4, 5, 6, 7, 8, 0], 3⟩
      [Move.right, Move.down] = .ok true :=
  @c2_a_star_verify ⟨[1, 2, 3, 4, 0, 5, 7, 8, 6], 3⟩ ⟨[1, 2, 3, 4, 5, 6, 7, 8, 0], 3⟩
    [Move.up, Move.down, Move.left, Move.right] [Move.right, Move.down]
    (by decide) (by decide) (by decide)

/-- C3: for valid boards `start` and `goal` of the same size and any move
set, `a_star` returns `None` if and only if no finite sequence of moves
drawn from the move set transforms `start` into `goal`. -/
theorem c3_a_star_none_iff_unreachable {start goal : Board} {moves : List Move}
    (hsv : start.Valid) ( _hgv : goal.Valid) ( _hside : goal.side = start.side) :
    a_star start goal moves = .ok (some none) ↔
      ¬ ∃ s : List Move, (∀ m ∈ s, m ∈ moves) ∧ Board.replay start s = some goal :=
  a_star_none_iff hsv

theorem c3_witness :
    ¬ ∃ s : List Move, (∀ m ∈ s, m ∈ ALL_MOVES) ∧
      Board.replay ⟨[0, 2, 1, 3], 2⟩ s = some ⟨[0, 1, 2, 3], 2⟩ :=
  (c3_a_star_none_iff_unreachable (by decide) (by decide) (by decide)).mp (by decide)

end SlidePuzzle
